import Mathlib

/-!
Verification of the Diligence-Cloud backend against its specification.

Strings from the Python source are modelled as `List Char`; Python text is
ASCII in all relevant call sites, so `Char.toLower` models `str.lower`.
Floating-point scores in the orchestrator heuristics are modelled as exact
rationals (`ℚ`); the vector-store similarity computation, which involves a
square root, is modelled over `ℝ`.
-/

/-! ## Basic Python string primitives -/

/-- Python `str.lower()` (ASCII). -/
def toLowerStr (s : List Char) : List Char := s.map Char.toLower

/-- Whitespace characters stripped by Python `str.strip()` / matched by `\s`
(ASCII): space, tab, newline, vertical tab, form feed, carriage return. -/
def pyIsSpace (c : Char) : Bool :=
  c = ' ' || c = '\t' || c = '\n' || c = '\x0b' || c = '\x0c' || c = '\r'

/-- Python `str.strip()`: remove leading and trailing whitespace. -/
def pyStrip (s : List Char) : List Char :=
  ((s.dropWhile pyIsSpace).reverse.dropWhile pyIsSpace).reverse

/-- Whether `pat` occurs at the start of `s` (helper for substring search). -/
def startsWith : List Char → List Char → Bool
  | [], _ => true
  | _ :: _, [] => false
  | p :: ps, c :: cs => p = c && startsWith ps cs

/-- Python `pat in s` (substring containment). -/
def containsSub (s pat : List Char) : Bool :=
  match s with
  | [] => startsWith pat []
  | _ :: cs => startsWith pat s || containsSub cs pat

/-- Python `str.split()` (split on whitespace runs, dropping empty pieces). -/
def pySplitWs (s : List Char) : List (List Char) :=
  match s with
  | [] => []
  | c :: cs =>
    if pyIsSpace c then pySplitWs cs
    else (c :: cs.takeWhile (fun d => !pyIsSpace d)) ::
      pySplitWs (cs.dropWhile (fun d => !pyIsSpace d))
termination_by s.length
decreasing_by
  · simp
  · have h1 : (cs.dropWhile (fun d => !pyIsSpace d)).length ≤ cs.length :=
      (List.dropWhile_sublist _).length_le
    simp
    omega

/-- Python `s.split(sep)` for a single-character separator (always returns at
least one piece, e.g. `''.split('_') == ['']`). -/
def pySplitOn (sep : Char) (s : List Char) : List (List Char) :=
  match s with
  | [] => [[]]
  | c :: cs =>
    match pySplitOn sep cs with
    | [] => [[]]
    | p :: ps => if c = sep then [] :: p :: ps else (c :: p) :: ps

/-- Characters stripped from both ends of answer words
(Python `w.strip('.,!?;:()[]$%"\'')`). -/
def pyIsPunct (c : Char) : Bool :=
  c = '.' || c = ',' || c = '!' || c = '?' || c = ';' || c = ':' ||
  c = '(' || c = ')' || c = '[' || c = ']' || c = '$' || c = '%' ||
  c = '"' || c = '\''

/-- Python `w.strip('.,!?;:()[]$%"\'')`. -/
def stripPunct (s : List Char) : List Char :=
  ((s.dropWhile pyIsPunct).reverse.dropWhile pyIsPunct).reverse

/-- Python `c.isdigit()` for ASCII / regex `\d`. -/
def pyIsDigit (c : Char) : Bool := '0' ≤ c && c ≤ '9'

/-- Regex `\w` (ASCII): letter, digit or underscore. -/
def pyIsWord (c : Char) : Bool :=
  pyIsDigit c || ('a' ≤ c && c ≤ 'z') || ('A' ≤ c && c ≤ 'Z') || c = '_'

/-! ## Question classifier (`OrchestratorAgent._classify_question`) -/

/-- Keyword sets of `_classify_question`, in the source's priority order. -/
def dataWords : List (List Char) :=
  ["how many".data, "how much".data, "what is the".data, "calculate".data,
   "total".data, "revenue".data, "profit".data, "growth rate".data,
   "percentage".data]

def financialWords : List (List Char) :=
  ["financial".data, "earnings".data, "ebitda".data, "margin".data,
   "valuation".data, "balance sheet".data]

def analysisWords : List (List Char) :=
  ["analyze".data, "compare".data, "difference".data, "contrast".data,
   "why".data, "how".data, "impact".data, "effect".data]

def summaryWords : List (List Char) :=
  ["summarize".data, "summary".data, "overview".data, "key points".data,
   "main".data, "highlights".data]

def comparisonWords : List (List Char) :=
  ["versus".data, "vs".data, "compare".data, "comparison".data,
   "difference".data]

/-- `OrchestratorAgent._classify_question`: lower-case the question and test
each category's keyword set in fixed priority order; first match wins,
default `general`. -/
def classify_question (question : List Char) : String :=
  let q := toLowerStr question
  if dataWords.any (fun w => containsSub q w) then "data"
  else if financialWords.any (fun w => containsSub q w) then "financial"
  else if analysisWords.any (fun w => containsSub q w) then "analysis"
  else if summaryWords.any (fun w => containsSub q w) then "summary"
  else if comparisonWords.any (fun w => containsSub q w) then "comparison"
  else "general"

/-! ## Fact-check confidence (`FactCheckAgent.verify`) -/

/-- Confidence derivation of `FactCheckAgent.verify`: keyword tests on the
lower-cased verification text, as an if/elif chain with default `0.85`.
Python `in` is substring containment. Float constants are written as exact
rationals via `mkRat` (e.g. `0.95 = mkRat 95 100`). -/
def verify_confidence (result : List Char) : ℚ :=
  let r := toLowerStr result
  if containsSub r "accurate".data || containsSub r "correct".data then mkRat 95 100
  else if containsSub r "partially".data || containsSub r "some issues".data then mkRat 70 100
  else if containsSub r "inaccurate".data || containsSub r "incorrect".data then mkRat 40 100
  else mkRat 85 100

/-! ## Text chunking (`SimpleVectorStore._chunk_text`)

The Python loop `while start < text_length: ...` is modelled with explicit
fuel; `chunkTextGo` returns `none` when the fuel is exhausted, so claims
about termination of the loop become claims that some finite fuel
suffices. -/

/-- Python `text.rfind(c, lo, hi)` for a single character: the largest index
`i` with `lo ≤ i < min hi (length text)` and `text[i] = c`, as an `Option`
(`none` models Python's `-1`). -/
def rfindChar (text : List Char) (c : Char) (lo hi : Nat) : Option Nat :=
  go (min hi text.length - lo)
where
  go : Nat → Option Nat
    | 0 => none
    | k + 1 =>
      let i := lo + k
      if text.getD i ' ' = c then some i else go k

/-- Maximum of two optional indices (`-1` for a missing one, as in
`max(last_period, last_newline)` with `rfind`'s `-1` convention). -/
def optMax : Option Nat → Option Nat → Option Nat
  | none, b => b
  | some a, none => some a
  | some a, some b => some (max a b)

/-- The adjusted chunk end of one `_chunk_text` iteration: `end = start +
chunk_size`, and if that does not reach the end of the text, search the last
100 characters of the window for the last `'.'` or newline and snap the end
to just after it when it lies strictly past `start`. -/
def chunkEnd (chunkSize : Nat) (text : List Char) (start : Nat) : Nat :=
  if start + chunkSize < text.length then
    match optMax (rfindChar text '.' (max start (start + chunkSize - 100)) (start + chunkSize))
        (rfindChar text '\n' (max start (start + chunkSize - 100)) (start + chunkSize)) with
    | some b => if start < b then b + 1 else start + chunkSize
    | none => start + chunkSize
  else start + chunkSize

/-- `chunk = text[start:end].strip()` of one `_chunk_text` iteration. -/
def chunkPiece (chunkSize : Nat) (text : List Char) (start : Nat) : List Char :=
  pyStrip ((text.take (chunkEnd chunkSize text start)).drop start)

/-- `start = end - overlap if end < text_length else text_length` of one
`_chunk_text` iteration. -/
def chunkNextStart (chunkSize overlap : Nat) (text : List Char) (start : Nat) : Nat :=
  let e := chunkEnd chunkSize text start
  if e < text.length then e - overlap else text.length

/-- The `while` loop of `_chunk_text` with explicit fuel. -/
def chunkTextGo (chunkSize overlap : Nat) (text : List Char) :
    Nat → Nat → Option (List (List Char))
  | 0, _ => none
  | fuel + 1, start =>
    if start < text.length then
      (chunkTextGo chunkSize overlap text fuel
          (chunkNextStart chunkSize overlap text start)).map
        (fun rest =>
          let chunk := chunkPiece chunkSize text start
          if chunk.isEmpty then rest else chunk :: rest)
    else some []

/-- `SimpleVectorStore._chunk_text`: in the terminating regime (in particular
for the production parameters `chunk_size = 1000`, `overlap = 200`) fuel
`text.length + 1` suffices, see the C6 theorems; outside it the Python loop
does not terminate and the model returns the `getD` default. -/
def chunk_text (chunkSize overlap : Nat) (text : List Char) : List (List Char) :=
  (chunkTextGo chunkSize overlap text (text.length + 1) 0).getD []

example : chunk_text 1000 200 "hello world".data = ["hello world".data] := by decide
example : chunk_text 4 0 "ab cd ef".data = ["ab c".data, "d ef".data] := by decide

theorem rfindChar_go_bounds (text : List Char) (c : Char) (lo : Nat) :
    ∀ k i, rfindChar.go text c lo k = some i → lo ≤ i ∧ i < lo + k := by
  intro k
  induction k with
  | zero => intro i h; exact absurd h (by simp [rfindChar.go])
  | succ n ih =>
    intro i h
    rw [rfindChar.go] at h
    by_cases hc : text.getD (lo + n) ' ' = c
    · rw [if_pos hc] at h
      cases h
      omega
    · rw [if_neg hc] at h
      have := ih i h
      omega

theorem rfindChar_bounds {text : List Char} {c : Char} {lo hi i : Nat}
    (h : rfindChar text c lo hi = some i) :
    lo ≤ i ∧ i < hi ∧ i < text.length := by
  unfold rfindChar at h
  have hb := rfindChar_go_bounds text c lo _ i h
  rcases Nat.le_total hi text.length with hle | hle
  · rw [Nat.min_eq_left hle] at hb; omega
  · rw [Nat.min_eq_right hle] at hb; omega

theorem optMax_bounds {a b : Option Nat} {m : Nat} (P : Nat → Prop)
    (hmax : ∀ x y, P x → P y → P (max x y))
    (ha : ∀ x, a = some x → P x) (hb : ∀ x, b = some x → P x)
    (h : optMax a b = some m) : P m := by
  match a, b, h with
  | none, b, h => exact hb m h
  | some x, none, h =>
    simp only [optMax, Option.some.injEq] at h
    exact h ▸ ha x rfl
  | some x, some y, h =>
    simp only [optMax, Option.some.injEq] at h
    exact h ▸ hmax x y (ha x rfl) (hb y rfl)

/-- Case analysis on the adjusted window end: either no sentence break was
used, or the end snapped to a break point in the searched window. -/
theorem chunkEnd_props {chunkSize : Nat} {text : List Char} {start : Nat}
    (h0 : start + chunkSize < text.length) :
    chunkEnd chunkSize text start = start + chunkSize ∨
      (start + 2 ≤ chunkEnd chunkSize text start ∧
       start + chunkSize - 100 + 1 ≤ chunkEnd chunkSize text start ∧
       chunkEnd chunkSize text start ≤ start + chunkSize) := by
  unfold chunkEnd
  rw [if_pos h0]
  cases hbp : optMax (rfindChar text '.' (max start (start + chunkSize - 100)) (start + chunkSize))
      (rfindChar text '\n' (max start (start + chunkSize - 100)) (start + chunkSize)) with
  | none => left; rfl
  | some b =>
    have hbnd : start + chunkSize - 100 ≤ b ∧ b < start + chunkSize ∧ b < text.length := by
      refine optMax_bounds
        (fun j => start + chunkSize - 100 ≤ j ∧ j < start + chunkSize ∧ j < text.length)
        ?_ ?_ ?_ hbp
      · intro x y hx hy
        rcases max_choice x y with h | h <;> rw [h]
        · exact hx
        · exact hy
      · intro x hx
        have h2 := rfindChar_bounds hx
        have h3 : start + chunkSize - 100 ≤ max start (start + chunkSize - 100) :=
          Nat.le_max_right _ _
        omega
      · intro x hx
        have h2 := rfindChar_bounds hx
        have h3 : start + chunkSize - 100 ≤ max start (start + chunkSize - 100) :=
          Nat.le_max_right _ _
        omega
    by_cases hsb : start < b
    · right
      dsimp only
      rw [if_pos hsb]
      omega
    · left
      dsimp only
      rw [if_neg hsb]

/-- Progress of one `_chunk_text` iteration: when `chunk_size ≥ overlap +
100`, the next value of `start` is strictly larger. -/
theorem chunkNextStart_gt {chunkSize overlap : Nat} (text : List Char)
    {start : Nat} (h100 : overlap + 100 ≤ chunkSize) (hs : start < text.length) :
    start < chunkNextStart chunkSize overlap text start := by
  unfold chunkNextStart
  by_cases h0 : start + chunkSize < text.length
  · rcases chunkEnd_props h0 with he | ⟨h2, h3, h4⟩
    · rw [he, if_pos h0]
      omega
    · by_cases h5 : chunkEnd chunkSize text start < text.length
      · rw [if_pos h5]
        omega
      · rw [if_neg h5]
        omega
  · have he : chunkEnd chunkSize text start = start + chunkSize := by
      unfold chunkEnd
      rw [if_neg h0]
    rw [he, if_neg h0]
    omega

/-- With enough fuel relative to the remaining text, the `_chunk_text` loop
finishes, provided `chunk_size ≥ overlap + 100`. -/
theorem chunkTextGo_isSome {chunkSize overlap : Nat} (text : List Char)
    (h100 : overlap + 100 ≤ chunkSize) :
    ∀ fuel start, text.length - start < fuel →
      (chunkTextGo chunkSize overlap text fuel start).isSome := by
  intro fuel
  induction fuel with
  | zero => intro start h; omega
  | succ n ih =>
    intro start h
    rw [chunkTextGo]
    by_cases hs : start < text.length
    · rw [if_pos hs]
      have hnext := chunkNextStart_gt text h100 hs
      have hrec := ih (chunkNextStart chunkSize overlap text start) (by omega)
      cases hx : chunkTextGo chunkSize overlap text n (chunkNextStart chunkSize overlap text start) with
      | none => rw [hx] at hrec; simp at hrec
      | some v => rfl
    · rw [if_neg hs]
      rfl

/-- C6 helper: with `chunk_size = 3`, `overlap = 2` and the text
`"a.bcdef"`, the loop state repeats (`start` returns to `0`), so no fuel
ever suffices. -/
theorem chunkTextGo_stuck : ∀ fuel, chunkTextGo 3 2 "a.bcdef".data fuel 0 = none := by
  intro fuel
  induction fuel with
  | zero => rfl
  | succ n ih =>
    rw [chunkTextGo]
    rw [if_pos (by decide)]
    rw [show chunkNextStart 3 2 "a.bcdef".data 0 = 0 from by decide]
    rw [ih]
    rfl

/-- C6 counterexample: the claim "`_chunk_text` terminates for every input
text and every `0 ≤ overlap < chunk_size`" is false: with `chunk_size = 3`,
`overlap = 2` (which satisfy `0 ≤ overlap < chunk_size`) on the text
`"a.bcdef"`, the loop never terminates — no amount of fuel makes the loop
model return a result. -/
theorem c6_chunk_termination_counterexample :
    (0 ≤ 2 ∧ 2 < 3) ∧
      ¬ ∃ fuel, (chunkTextGo 3 2 "a.bcdef".data fuel 0).isSome = true := by
  refine ⟨by omega, ?_⟩
  rintro ⟨fuel, hf⟩
  rw [chunkTextGo_stuck fuel] at hf
  simp at hf

/-- C6 (amended): the `_chunk_text` loop terminates for every input text
whenever `chunk_size ≥ overlap + 100` — in particular for the production
parameters `chunk_size = 1000`, `overlap = 200`: fuel `text.length + 1`
always suffices. -/
theorem c6_chunk_termination {chunkSize overlap : Nat} (text : List Char)
    (h100 : overlap + 100 ≤ chunkSize) :
    (chunkTextGo chunkSize overlap text (text.length + 1) 0).isSome := by
  exact chunkTextGo_isSome text h100 (text.length + 1) 0 (by omega)

/-- C6 witness: the amended termination theorem applied at the production
parameters on a concrete text. -/
theorem c6_chunk_termination_witness :
    200 + 100 ≤ 1000 ∧
      (chunkTextGo 1000 200 "hello world".data ("hello world".data.length + 1) 0).isSome := by
  exact ⟨by omega, c6_chunk_termination "hello world".data (by omega)⟩

/-- C1 counterexample: on the spec's end-to-end example question
`"What is the EBITDA margin?"`, the classifier does not return `financial`;
it returns `data`, because the `data` keyword set — which is tested first —
contains the phrase `"what is the"`. -/
theorem c1_classify_counterexample :
    classify_question "What is the EBITDA margin?".data ≠ "financial" ∧
      classify_question "What is the EBITDA margin?".data = "data" := by
  decide

/-- C1 (amended): for the question `"What is the EBITDA margin?"` the
classifier returns `data`: although the lower-cased question contains the
`financial` keyword `"ebitda"`, it also contains the `data` keyword
`"what is the"`, and the categories are tested in the fixed priority order
data, financial, analysis, summary, comparison, so `data` wins. -/
theorem c1_classify_ebitda_is_data :
    containsSub (toLowerStr "What is the EBITDA margin?".data) "ebitda".data = true ∧
      containsSub (toLowerStr "What is the EBITDA margin?".data) "what is the".data = true ∧
      classify_question "What is the EBITDA margin?".data = "data" := by
  decide

/-- C5: the code's keyword cascade checks `"accurate"` before
`"inaccurate"`, and Python `in` is substring containment, so a verification
text containing `"inaccurate"` necessarily contains `"accurate"` and is
assigned confidence `0.95`, not the claimed `0.40` — the `0.40` branch is
unreachable for the keywords `"inaccurate"`/`"incorrect"`. Evaluation of the
model at the failing input. -/
theorem c5_verify_confidence_inaccurate :
    containsSub (toLowerStr "The answer is inaccurate.".data) "inaccurate".data = true ∧
      verify_confidence "The answer is inaccurate.".data = mkRat 95 100 ∧
      mkRat 95 100 ≠ mkRat 40 100 := by
  decide

/-! ## Stable sorting (model of Python `list.sort`)

Python's `list.sort(key=k)` is a stable sort; its output is uniquely
determined by key order and stability, and is modelled by Mathlib's
(stable) insertion sort with the relation `key a ≤ key b`. Descending
sorts (`reverse=True`) use an `OrderDual` key, composite keys use the
lexicographic product order, matching Python tuple comparison. -/

def pySort {α : Type} {κ : Type} [LinearOrder κ] (key : α → κ) (l : List α) : List α :=
  l.insertionSort fun a b => key a ≤ key b

theorem pySort_perm {α κ : Type} [LinearOrder κ] (key : α → κ) (l : List α) :
    (pySort key l).Perm l :=
  List.perm_insertionSort _ l

theorem pySort_length {α κ : Type} [LinearOrder κ] (key : α → κ) (l : List α) :
    (pySort key l).length = l.length :=
  (pySort_perm key l).length_eq

theorem pySort_pairwise {α κ : Type} [LinearOrder κ] (key : α → κ) (l : List α) :
    (pySort key l).Pairwise (fun a b => key a ≤ key b) := by
  haveI : IsTotal α (fun a b => key a ≤ key b) := ⟨fun a b => le_total (key a) (key b)⟩
  haveI : IsTrans α (fun a b => key a ≤ key b) := ⟨fun _ _ _ h1 h2 => le_trans h1 h2⟩
  exact List.sorted_insertionSort _ l

theorem filter_orderedInsert_key {α κ : Type} [LinearOrder κ] {key : α → κ}
    (p : α → Bool) (hp : ∀ a b, p a = true → p b = true → key a = key b) :
    ∀ (l : List α) (x : α),
      (l.orderedInsert (fun a b => key a ≤ key b) x).filter p =
        if p x then x :: l.filter p else l.filter p := by
  intro l
  induction l with
  | nil =>
    intro x
    cases hpx : p x <;> simp [List.orderedInsert, List.filter, hpx]
  | cons b t ih =>
    intro x
    rw [List.orderedInsert]
    by_cases hle : key x ≤ key b
    · rw [if_pos hle]
      by_cases hx : p x = true
      · rw [List.filter_cons_of_pos hx, if_pos hx]
      · rw [List.filter_cons_of_neg (by simpa using hx),
          if_neg (by simpa using hx)]
    · rw [if_neg hle]
      by_cases hb : p b = true
      · have hxfalse : ¬ p x = true := by
          intro hx
          exact hle ((hp x b hx hb).le)
        rw [List.filter_cons_of_pos hb, List.filter_cons_of_pos hb, ih x,
          if_neg hxfalse, if_neg hxfalse]
      · rw [List.filter_cons_of_neg (by simpa using hb),
          List.filter_cons_of_neg (by simpa using hb), ih x]

/-- Stability of the Python sort model, filter form: the subsequence of
elements satisfying a predicate that is constant on a single key value is
unchanged by sorting. -/
theorem pySort_filter {α κ : Type} [LinearOrder κ] {key : α → κ}
    (p : α → Bool) (hp : ∀ a b, p a = true → p b = true → key a = key b)
    (l : List α) : (pySort key l).filter p = l.filter p := by
  induction l with
  | nil => rfl
  | cons x t ih =>
    show ((pySort key t).orderedInsert (fun a b => key a ≤ key b) x).filter p = _
    rw [filter_orderedInsert_key p hp (pySort key t) x, ih]
    by_cases hx : p x = true
    · rw [if_pos hx, List.filter_cons_of_pos hx]
    · rw [if_neg hx, List.filter_cons_of_neg (by simpa using hx)]

/-- The filtered initial segment of a list is a prefix of the filtered
list. -/
theorem filter_take_isPrefix {α : Type} (p : α → Bool) (l : List α) (n : Nat) :
    ((l.take n).filter p).IsPrefix (l.filter p) := by
  refine ⟨(l.drop n).filter p, ?_⟩
  rw [← List.filter_append, List.take_append_drop]

/-! ## Vector store (`SimpleVectorStore`)

Documents are held in a Python dict keyed by `doc_id`; a dict preserves
insertion order and has unique keys, modelled as an association list.
Embeddings are real vectors; the similarity computation uses a square root
and is modelled over `ℝ` (hence `noncomputable`). -/

/-- The metadata fields of a document that the modelled code reads
(`metadata.get('filename', ...)`, `metadata.get('project_id')`); a missing
key is `none`. -/
structure Metadata where
  filename : Option (List Char)
  projectId : Option (List Char)
deriving DecidableEq

structure Chunk where
  index : Nat
  text : List Char
  embedding : List ℝ

structure DocEntry where
  metadata : Metadata
  chunks : List Chunk

abbrev Store : Type := List (List Char × DocEntry)

/-- First-match association lookup (Python `self.documents[doc_id]`). -/
def lookupDoc : Store → List Char → Option DocEntry
  | [], _ => none
  | p :: ps, k => if p.1 = k then some p.2 else lookupDoc ps k

/-- Python `doc_id in self.documents`. -/
def containsKey (docs : Store) (k : List Char) : Bool :=
  (lookupDoc docs k).isSome

/-- `SimpleVectorStore._get_embedding`: on any provider failure the
exception is caught and a 1536-dimensional zero vector is returned as
fallback. -/
def getEmbedding : Except String (List ℝ) → List ℝ
  | Except.ok v => v
  | Except.error _ => List.replicate 1536 0

/-- Euclidean norm `np.linalg.norm`. -/
noncomputable def vecNorm (a : List ℝ) : ℝ :=
  Real.sqrt ((a.map fun x => x * x).sum)

/-- Dot product `np.dot` (numpy requires equal dimensions; `zip` truncates,
which is only exercised on equal-length vectors). -/
noncomputable def dotList (a b : List ℝ) : ℝ :=
  ((a.zip b).map fun p => p.1 * p.2).sum

/-- `SimpleVectorStore._cosine_similarity`: `0` when either norm is zero,
otherwise the quotient clamped to `[-1, 1]`. The Python NaN/Inf guard is
vacuous in the real-number model: the guarded division never has a zero
denominator. -/
noncomputable def cosine_similarity (a b : List ℝ) : ℝ :=
  if vecNorm a = 0 ∨ vecNorm b = 0 then 0
  else max (-1) (min 1 (dotList a b / (vecNorm a * vecNorm b)))

structure SearchResult where
  text : List Char
  metadata : Metadata
  docId : List Char
  chunkIndex : Nat
  score : ℝ
  rank : Nat

/-- Project filter of `search`: skip a document whose metadata
`project_id` differs from a requested one (no filter when none is
requested). -/
def skipByProject (md : Metadata) : Option (List Char) → Bool
  | none => false
  | some pid => decide (md.projectId ≠ some pid)

/-- Document-id allowlist filter of `search`. -/
def skipByIds (docId : List Char) : Option (List (List Char)) → Bool
  | none => false
  | some ids => decide (docId ∉ ids)

/-- The candidate-collection loop of `search`: every chunk of every document
passing the filters, in store order, scored by cosine similarity against the
query embedding, with rank `0`. The result metadata is the document metadata
plus `doc_id` and `chunk_index` (flattened into fields here). -/
noncomputable def scanResults (docs : Store) (queryEmbedding : List ℝ)
    (documentIds : Option (List (List Char))) (projectId : Option (List Char)) :
    List SearchResult :=
  docs.flatMap fun p =>
    if skipByProject p.2.metadata projectId then []
    else if skipByIds p.1 documentIds then []
    else p.2.chunks.map fun ch =>
      { text := ch.text, metadata := p.2.metadata, docId := p.1,
        chunkIndex := ch.index,
        score := cosine_similarity queryEmbedding ch.embedding, rank := 0 }

/-- Rank assignment `for i, result in enumerate(results[:top_k]):
result['rank'] = i + 1`. -/
def assignRanks : Nat → List SearchResult → List SearchResult
  | _, [] => []
  | i, r :: rs => { r with rank := i } :: assignRanks (i + 1) rs

/-- `SimpleVectorStore.search`: embed the query (via the fallible provider),
score all chunks in scope, sort descending by similarity (Python's stable
sort), take the top `top_k` and assign dense 1-based ranks. -/
noncomputable def search (docs : Store) (queryResponse : Except String (List ℝ))
    (documentIds : Option (List (List Char))) (projectId : Option (List Char))
    (topK : Nat) : List SearchResult :=
  let queryEmbedding := getEmbedding queryResponse
  let results := scanResults docs queryEmbedding documentIds projectId
  let sorted := pySort (fun r => OrderDual.toDual r.score) results
  assignRanks 1 (sorted.take topK)

/-- The chunk-processing loop of `add_document`
(`for i, chunk in enumerate(chunks): if chunk.strip(): ...append...`),
carrying the enumeration index. -/
def chunksForFrom (embed : List Char → List ℝ) : Nat → List (List Char) → List Chunk
  | _, [] => []
  | i, c :: cs =>
    if pyStrip c ≠ [] then
      { index := i, text := c, embedding := embed c } :: chunksForFrom embed (i + 1) cs
    else chunksForFrom embed (i + 1) cs

/-- The chunk records appended by `add_document`: enumerate the text's
chunks and keep each non-empty stripped chunk with its enumeration index and
its embedding. -/
def chunksFor (embed : List Char → List ℝ) (chunkSize overlap : Nat)
    (text : List Char) : List Chunk :=
  chunksForFrom embed 0 (chunk_text chunkSize overlap text)

/-- `SimpleVectorStore.add_document`: set `project_id` in the metadata,
chunk and embed the text, and append the chunk records to the document's
entry — creating the entry only when `doc_id` is not yet present (an
existing entry keeps its stored metadata and its old chunks). -/
def add_document (embed : List Char → List ℝ) (chunkSize overlap : Nat)
    (docId text : List Char) (metadata : Metadata) (projectId : List Char)
    (docs : Store) : Store :=
  let newChunks := chunksFor embed chunkSize overlap text
  if containsKey docs docId then
    docs.map fun p =>
      if p.1 = docId then (p.1, { metadata := p.2.metadata, chunks := p.2.chunks ++ newChunks })
      else p
  else
    docs ++ [(docId, { metadata := { metadata with projectId := some projectId },
                       chunks := newChunks })]

/-- `SimpleVectorStore.delete_document`: delete the entry and return `True`
when present, otherwise return `False` leaving the store unchanged. -/
def delete_document (docId : List Char) (docs : Store) : Bool × Store :=
  if containsKey docs docId then
    (true, docs.filter fun p => decide (p.1 ≠ docId))
  else (false, docs)

/-! ## C7: cosine similarity bounds -/

/-- C7: for all vectors `a` and `b`, `_cosine_similarity` lies in `[-1, 1]`,
and when either vector has zero norm the result is exactly `0` (the zero-norm
guard fires before the division, so the division is never performed on a zero
denominator; NaN/Inf intermediates do not exist in the real-number model). -/
theorem c7_cosine_similarity_bounds (a b : List ℝ) :
    -1 ≤ cosine_similarity a b ∧ cosine_similarity a b ≤ 1 ∧
      ((vecNorm a = 0 ∨ vecNorm b = 0) → cosine_similarity a b = 0) := by
  unfold cosine_similarity
  by_cases h : vecNorm a = 0 ∨ vecNorm b = 0
  · rw [if_pos h]
    norm_num
  · rw [if_neg h]
    refine ⟨le_max_left _ _, max_le (by norm_num) (min_le_left _ _), fun hc => absurd hc h⟩

/-- C7 witness: the zero vector against `[1]`. -/
theorem c7_cosine_similarity_bounds_witness :
    (vecNorm [(0 : ℝ)] = 0 ∨ vecNorm [(1 : ℝ)] = 0) ∧
      cosine_similarity [(0 : ℝ)] [(1 : ℝ)] = 0 := by
  have h0 : vecNorm [(0 : ℝ)] = 0 := by simp [vecNorm]
  exact ⟨Or.inl h0, (c7_cosine_similarity_bounds [(0 : ℝ)] [(1 : ℝ)]).2.2 (Or.inl h0)⟩

/-! ## C9/C10: store mutation lemmas -/

theorem dropWhile_head?_false {p : Char → Bool} :
    ∀ (l : List Char) (a : Char), (l.dropWhile p).head? = some a → p a = false := by
  intro l
  induction l with
  | nil => intro a h; simp at h
  | cons c t ih =>
    intro a h
    rw [List.dropWhile_cons] at h
    by_cases hp : p c
    · rw [if_pos hp] at h
      exact ih a h
    · rw [if_neg hp] at h
      simp at h
      rw [← h]
      simpa using hp

theorem dropWhile_eq_self_of_head {p : Char → Bool} {l : List Char}
    (h : ∀ a, l.head? = some a → p a = false) : l.dropWhile p = l := by
  cases l with
  | nil => rfl
  | cons c t =>
    rw [List.dropWhile_cons, if_neg]
    simp [h c rfl]

/-- Python `strip` is idempotent. -/
theorem pyStrip_idem (s : List Char) : pyStrip (pyStrip s) = pyStrip s := by
  unfold pyStrip
  have hB : ∀ a, ((s.dropWhile pyIsSpace).reverse.dropWhile pyIsSpace).head? = some a →
      pyIsSpace a = false := fun a h => dropWhile_head?_false _ a h
  have hBrev : ∀ a,
      ((s.dropWhile pyIsSpace).reverse.dropWhile pyIsSpace).reverse.head? = some a →
      pyIsSpace a = false := by
    intro a h
    have hpre : ((s.dropWhile pyIsSpace).reverse.dropWhile pyIsSpace).reverse <+:
        (s.dropWhile pyIsSpace) := by
      have hsfx : (s.dropWhile pyIsSpace).reverse.dropWhile pyIsSpace <:+
          (s.dropWhile pyIsSpace).reverse := List.dropWhile_suffix _
      have := List.reverse_prefix.mpr hsfx
      simpa using this
    obtain ⟨t, ht⟩ := hpre
    have : (s.dropWhile pyIsSpace).head? = some a := by
      rw [← ht]
      cases hrev : ((s.dropWhile pyIsSpace).reverse.dropWhile pyIsSpace).reverse with
      | nil => rw [hrev] at h; simp at h
      | cons x xs =>
        rw [hrev] at h
        simp at h
        simp [h]
    exact dropWhile_head?_false _ a this
  rw [dropWhile_eq_self_of_head hBrev, List.reverse_reverse,
    dropWhile_eq_self_of_head hB]

/-- Every chunk produced by the `_chunk_text` loop is non-empty and already
stripped. -/
theorem chunkTextGo_mem {chunkSize overlap : Nat} {text : List Char} :
    ∀ fuel start l, chunkTextGo chunkSize overlap text fuel start = some l →
      ∀ c ∈ l, pyStrip c = c ∧ c ≠ [] := by
  intro fuel
  induction fuel with
  | zero => intro start l h; exact absurd h (by simp [chunkTextGo])
  | succ n ih =>
    intro start l h
    rw [chunkTextGo] at h
    by_cases hs : start < text.length
    · rw [if_pos hs] at h
      cases hrec : chunkTextGo chunkSize overlap text n
          (chunkNextStart chunkSize overlap text start) with
      | none => rw [hrec] at h; simp at h
      | some rest =>
        rw [hrec] at h
        have h9 : (if (chunkPiece chunkSize text start).isEmpty then rest
            else chunkPiece chunkSize text start :: rest) = l := by
          simpa using h
        intro c hc
        rw [← h9] at hc
        by_cases hemp : (chunkPiece chunkSize text start).isEmpty
        · rw [if_pos hemp] at hc
          exact ih _ rest hrec c hc
        · rw [if_neg hemp] at hc
          cases hc with
          | head =>
            refine ⟨pyStrip_idem _, ?_⟩
            intro hnil
            rw [hnil] at hemp
            simp at hemp
          | tail _ hmem => exact ih _ rest hrec c hmem
    · rw [if_neg hs] at h
      simp only [Option.some.injEq] at h
      rw [← h]
      intro c hc
      simp at hc

theorem chunk_text_mem {chunkSize overlap : Nat} {text : List Char} :
    ∀ c ∈ chunk_text chunkSize overlap text, pyStrip c ≠ [] := by
  intro c hc
  unfold chunk_text at hc
  cases hgo : chunkTextGo chunkSize overlap text (text.length + 1) 0 with
  | none => rw [hgo] at hc; simp at hc
  | some l =>
    rw [hgo] at hc
    simp only [Option.getD_some] at hc
    have := chunkTextGo_mem _ _ l hgo c hc
    rw [this.1]
    exact this.2

theorem chunksForFrom_index (embed : List Char → List ℝ) :
    ∀ (l : List (List Char)) (i : Nat), (∀ c ∈ l, pyStrip c ≠ []) →
      (chunksForFrom embed i l).map Chunk.index = List.range' i l.length := by
  intro l
  induction l with
  | nil => intro i _; rfl
  | cons c cs ih =>
    intro i h
    rw [chunksForFrom, if_pos (h c (List.mem_cons_self c cs)), List.map_cons,
      List.length_cons, List.range'_succ]
    exact congrArg (List.cons i) (ih (i + 1) fun d hd => h d (List.mem_cons_of_mem c hd))

theorem lookupDoc_map_update (docs : Store) (docId : List Char) (g : DocEntry → DocEntry) :
    lookupDoc (docs.map fun p => if p.1 = docId then (p.1, g p.2) else p) docId =
      (lookupDoc docs docId).map g := by
  induction docs with
  | nil => rfl
  | cons p ps ih =>
    rw [List.map_cons]
    by_cases hp : p.1 = docId
    · rw [if_pos hp]
      show (if p.1 = docId then _ else _) = _
      rw [if_pos hp]
      show _ = (if p.1 = docId then some p.2 else lookupDoc ps docId).map g
      rw [if_pos hp]
      rfl
    · rw [if_neg hp]
      show (if p.1 = docId then _ else _) = _
      rw [if_neg hp]
      show _ = (if p.1 = docId then some p.2 else lookupDoc ps docId).map g
      rw [if_neg hp]
      exact ih

/-- C9: adding a document whose `doc_id` is already present appends the new
text's chunks — whose indices restart at `0` — to the existing chunk list
and keeps the previously stored metadata entry; hence after a duplicate add
the document's chunk indices are no longer unique. -/
theorem c9_add_document_duplicate (embed : List Char → List ℝ)
    (chunkSize overlap : Nat) (docId text : List Char) (metadata : Metadata)
    (projectId : List Char) (docs : Store) (e : DocEntry)
    (he : lookupDoc docs docId = some e) :
    lookupDoc (add_document embed chunkSize overlap docId text metadata projectId docs) docId =
      some { metadata := e.metadata,
             chunks := e.chunks ++ chunksFor embed chunkSize overlap text } ∧
    (chunksFor embed chunkSize overlap text).map Chunk.index =
      List.range' 0 (chunk_text chunkSize overlap text).length ∧
    (0 ∈ e.chunks.map Chunk.index → chunksFor embed chunkSize overlap text ≠ [] →
      ¬ ((e.chunks ++ chunksFor embed chunkSize overlap text).map Chunk.index).Nodup) := by
  have hck : containsKey docs docId = true := by
    unfold containsKey
    rw [he]
    rfl
  have hidx : (chunksFor embed chunkSize overlap text).map Chunk.index =
      List.range' 0 (chunk_text chunkSize overlap text).length :=
    chunksForFrom_index embed _ 0 chunk_text_mem
  refine ⟨?_, hidx, ?_⟩
  · unfold add_document
    rw [if_pos hck]
    have hu := lookupDoc_map_update docs docId
      (fun d => { metadata := d.metadata,
                  chunks := d.chunks ++ chunksFor embed chunkSize overlap text })
    rw [he] at hu
    simpa using hu
  · intro h0 hne hnodup
    have hlen : (chunksFor embed chunkSize overlap text).length =
        (chunk_text chunkSize overlap text).length := by
      have := congrArg List.length hidx
      simpa using this
    have h0new : 0 ∈ (chunksFor embed chunkSize overlap text).map Chunk.index := by
      rw [hidx]
      cases hn : (chunk_text chunkSize overlap text).length with
      | zero =>
        exfalso
        apply hne
        rw [hn] at hlen
        exact List.length_eq_zero.mp hlen
      | succ m =>
        rw [List.range'_succ]
        exact List.mem_cons_self 0 _
    rw [List.map_append, List.nodup_append] at hnodup
    exact hnodup.2.2 h0 h0new

def c9demoEntry : DocEntry :=
  { metadata := { filename := some "f".data, projectId := none },
    chunks := [{ index := 0, text := "x".data, embedding := [] }] }

def c9demoStore : Store := [("d".data, c9demoEntry)]

/-- C9 witness: a duplicate `add_document` on a concrete one-document store. -/
theorem c9_add_document_duplicate_witness :
    lookupDoc c9demoStore "d".data = some c9demoEntry ∧
      lookupDoc (add_document (fun _ => []) 1000 200 "d".data "hi".data
          { filename := none, projectId := none } "p".data c9demoStore) "d".data =
        some { metadata := c9demoEntry.metadata,
               chunks := c9demoEntry.chunks ++ chunksFor (fun _ => []) 1000 200 "hi".data } ∧
      ¬ ((c9demoEntry.chunks ++ chunksFor (fun _ => []) 1000 200 "hi".data).map
          Chunk.index).Nodup := by
  have hmain := c9_add_document_duplicate (fun _ => []) 1000 200 "d".data "hi".data
    { filename := none, projectId := none } "p".data c9demoStore c9demoEntry rfl
  refine ⟨rfl, hmain.1, ?_⟩
  have hlen : (chunksFor (fun _ => ([] : List ℝ)) 1000 200 "hi".data).length = 1 := by decide
  refine hmain.2.2 (by decide) ?_
  intro hh
  rw [hh] at hlen
  simp at hlen

theorem lookupDoc_filter_self (docs : Store) (docId : List Char) :
    lookupDoc (docs.filter fun p => decide (p.1 ≠ docId)) docId = none := by
  induction docs with
  | nil => rfl
  | cons p ps ih =>
    rw [List.filter_cons]
    by_cases hp : p.1 = docId
    · rw [if_neg (by simp [hp])]
      exact ih
    · rw [if_pos (by simp [hp])]
      show (if p.1 = docId then some p.2 else _) = none
      rw [if_neg hp]
      exact ih

theorem lookupDoc_filter_other (docs : Store) (docId k : List Char) (hk : k ≠ docId) :
    lookupDoc (docs.filter fun p => decide (p.1 ≠ docId)) k = lookupDoc docs k := by
  induction docs with
  | nil => rfl
  | cons p ps ih =>
    rw [List.filter_cons]
    by_cases hp : p.1 = docId
    · rw [if_neg (by simp [hp])]
      show _ = (if p.1 = k then some p.2 else lookupDoc ps k)
      rw [if_neg (by rw [hp]; exact fun hkk => hk hkk.symm)]
      exact ih
    · rw [if_pos (by simp [hp])]
      show (if p.1 = k then _ else _) = (if p.1 = k then _ else _)
      by_cases hpk : p.1 = k
      · rw [if_pos hpk, if_pos hpk]
      · rw [if_neg hpk, if_neg hpk]
        exact ih

/-- C10: `delete_document` returns `True` and removes exactly the entry for
`doc_id` when present (every other document's entry is unchanged), and
returns `False` leaving the store completely unchanged when absent. -/
theorem c10_delete_document (docId : List Char) (docs : Store) :
    (containsKey docs docId = true →
      (delete_document docId docs).1 = true ∧
      lookupDoc (delete_document docId docs).2 docId = none ∧
      ∀ k, k ≠ docId → lookupDoc (delete_document docId docs).2 k = lookupDoc docs k) ∧
    (containsKey docs docId = false → delete_document docId docs = (false, docs)) := by
  constructor
  · intro h
    unfold delete_document
    rw [if_pos h]
    exact ⟨rfl, lookupDoc_filter_self docs docId,
      fun k hk => lookupDoc_filter_other docs docId k hk⟩
  · intro h
    unfold delete_document
    rw [if_neg (by simp [h])]

def c10demoStore : Store :=
  [("a".data, { metadata := { filename := none, projectId := none }, chunks := [] }),
   ("b".data, { metadata := { filename := none, projectId := none }, chunks := [] })]

/-- C10 witness: deleting a present and an absent document of a concrete
two-document store. -/
theorem c10_delete_document_witness :
    containsKey c10demoStore "a".data = true ∧
      (delete_document "a".data c10demoStore).1 = true ∧
      lookupDoc (delete_document "a".data c10demoStore).2 "a".data = none ∧
      lookupDoc (delete_document "a".data c10demoStore).2 "b".data =
        lookupDoc c10demoStore "b".data ∧
      containsKey c10demoStore "zz".data = false ∧
      delete_document "zz".data c10demoStore = (false, c10demoStore) := by
  refine ⟨rfl, ?_, ?_, ?_, rfl, ?_⟩
  · exact ((c10_delete_document "a".data c10demoStore).1 rfl).1
  · exact ((c10_delete_document "a".data c10demoStore).1 rfl).2.1
  · exact ((c10_delete_document "a".data c10demoStore).1 rfl).2.2 "b".data (by decide)
  · exact (c10_delete_document "zz".data c10demoStore).2 rfl

/-! ## C8: search result shape -/

/-- Forget the rank of a search result (for comparing post-ranking results
with pre-ranking candidates). -/
def clearRank (r : SearchResult) : SearchResult := { r with rank := 0 }

theorem mem_assignRanks {b : SearchResult} :
    ∀ {i : Nat} {l : List SearchResult}, b ∈ assignRanks i l →
      ∃ a ∈ l, ∃ j, b = { a with rank := j } := by
  intro i l
  induction l generalizing i with
  | nil => intro h; simp [assignRanks] at h
  | cons r rs ih =>
    intro h
    rw [assignRanks] at h
    cases h with
    | head => exact ⟨r, List.mem_cons_self r rs, i, rfl⟩
    | tail _ hmem =>
      obtain ⟨a, ha, j, hb⟩ := ih hmem
      exact ⟨a, List.mem_cons_of_mem r ha, j, hb⟩

theorem assignRanks_length : ∀ (i : Nat) (l : List SearchResult),
    (assignRanks i l).length = l.length := by
  intro i l
  induction l generalizing i with
  | nil => rfl
  | cons r rs ih => simp [assignRanks, ih]

theorem assignRanks_map_rank : ∀ (i : Nat) (l : List SearchResult),
    (assignRanks i l).map SearchResult.rank = List.range' i l.length := by
  intro i l
  induction l generalizing i with
  | nil => rfl
  | cons r rs ih =>
    rw [assignRanks, List.map_cons, List.length_cons, List.range'_succ]
    exact congrArg (List.cons i) (ih (i + 1))

theorem assignRanks_map_clearRank : ∀ (i : Nat) (l : List SearchResult),
    (assignRanks i l).map clearRank = l.map clearRank := by
  intro i l
  induction l generalizing i with
  | nil => rfl
  | cons r rs ih =>
    rw [assignRanks, List.map_cons, List.map_cons, ih]
    rfl

theorem assignRanks_pairwise {R : SearchResult → SearchResult → Prop}
    (hR : ∀ (a b : SearchResult) (i j : Nat), R a b →
      R { a with rank := i } { b with rank := j }) :
    ∀ (i : Nat) {l : List SearchResult}, l.Pairwise R → (assignRanks i l).Pairwise R := by
  intro i l
  induction l generalizing i with
  | nil => intro _; exact List.Pairwise.nil
  | cons r rs ih =>
    intro h
    rw [assignRanks]
    rw [List.pairwise_cons] at h
    refine List.Pairwise.cons ?_ (ih (i + 1) h.2)
    intro b hb
    obtain ⟨a, ha, j, hbja⟩ := mem_assignRanks hb
    have := hR r a i j (h.1 a ha)
    rw [← hbja] at this
    exact this

theorem scanResults_rank (docs : Store) (q : List ℝ)
    (documentIds : Option (List (List Char))) (projectId : Option (List Char)) :
    ∀ r ∈ scanResults docs q documentIds projectId, r.rank = 0 := by
  intro r hr
  rw [scanResults, List.mem_flatMap] at hr
  obtain ⟨p, _, hrp⟩ := hr
  by_cases h1 : skipByProject p.2.metadata projectId
  · rw [if_pos h1] at hrp
    simp at hrp
  · rw [if_neg h1] at hrp
    by_cases h2 : skipByIds p.1 documentIds
    · rw [if_pos h2] at hrp
      simp at hrp
    · rw [if_neg h2] at hrp
      rw [List.mem_map] at hrp
      obtain ⟨ch, _, hch⟩ := hrp
      rw [← hch]

theorem map_clearRank_eq_self {l : List SearchResult} (h : ∀ r ∈ l, r.rank = 0) :
    l.map clearRank = l := by
  induction l with
  | nil => rfl
  | cons r rs ih =>
    rw [List.map_cons, ih fun x hx => h x (List.mem_cons_of_mem r hx)]
    have hr : r.rank = 0 := h r (List.mem_cons_self r rs)
    have : clearRank r = r := by
      cases r
      simp [clearRank] at hr ⊢
      exact hr.symm
    rw [this]

/-- C8: for a fixed store state and a fixed (successfully embedded) query,
`search` returns at most `top_k` results, sorted by non-increasing
similarity score; the result at position `i` carries rank `i` (1-based); and
equal-score ties keep the stable order in which the chunks were scanned from
the index: for every score value, the results carrying that score are an
initial segment of the scanned candidates carrying that score, in scan
order. -/
theorem c8_search_props (docs : Store) (emb : List ℝ)
    (documentIds : Option (List (List Char))) (projectId : Option (List Char))
    (topK : Nat) :
    (search docs (Except.ok emb) documentIds projectId topK).length ≤ topK ∧
      (search docs (Except.ok emb) documentIds projectId topK).Pairwise
        (fun x y => y.score ≤ x.score) ∧
      (search docs (Except.ok emb) documentIds projectId topK).map SearchResult.rank =
        List.range' 1 (search docs (Except.ok emb) documentIds projectId topK).length ∧
      ∀ s : ℝ,
        (((search docs (Except.ok emb) documentIds projectId topK).filter
            fun r => decide (r.score = s)).map clearRank).IsPrefix
          ((scanResults docs emb documentIds projectId).filter
            fun r => decide (r.score = s)) := by
  have hsearch : search docs (Except.ok emb) documentIds projectId topK =
      assignRanks 1 ((pySort (fun r => OrderDual.toDual r.score)
        (scanResults docs emb documentIds projectId)).take topK) := rfl
  refine ⟨?_, ?_, ?_, ?_⟩
  · rw [hsearch, assignRanks_length]
    exact List.length_take_le _ _
  · rw [hsearch]
    refine assignRanks_pairwise (fun a b i j h => h) 1 ?_
    refine List.Pairwise.sublist (List.take_sublist _ _) ?_
    have h1 := pySort_pairwise (fun r : SearchResult => OrderDual.toDual r.score)
      (scanResults docs emb documentIds projectId)
    exact h1.imp fun h => OrderDual.toDual_le_toDual.mp h
  · rw [hsearch, assignRanks_map_rank, assignRanks_length]
  · intro s
    rw [hsearch]
    have hpg : ((fun r : SearchResult => decide (r.score = s)) ∘ clearRank) =
        (fun r : SearchResult => decide (r.score = s)) := funext fun r => rfl
    have h1 : ((assignRanks 1 ((pySort (fun r : SearchResult => OrderDual.toDual r.score)
          (scanResults docs emb documentIds projectId)).take topK)).filter
          (fun r => decide (r.score = s))).map clearRank =
        ((assignRanks 1 ((pySort (fun r : SearchResult => OrderDual.toDual r.score)
          (scanResults docs emb documentIds projectId)).take topK)).map clearRank).filter
          (fun r => decide (r.score = s)) := by
      rw [List.filter_map, hpg]
    rw [h1, assignRanks_map_clearRank, map_clearRank_eq_self]
    · have h2 : ((pySort (fun r : SearchResult => OrderDual.toDual r.score)
          (scanResults docs emb documentIds projectId)).filter
            (fun r => decide (r.score = s))) =
          ((scanResults docs emb documentIds projectId).filter
            (fun r => decide (r.score = s))) := by
        refine pySort_filter _ ?_ _
        intro a b ha hb
        simp only [decide_eq_true_eq] at ha hb
        rw [ha, hb]
      rw [← h2]
      exact filter_take_isPrefix _ _ _
    · intro r hr
      have hmem : r ∈ pySort (fun r : SearchResult => OrderDual.toDual r.score)
          (scanResults docs emb documentIds projectId) :=
        (List.take_sublist _ _).mem hr
      have := (pySort_perm (fun r : SearchResult => OrderDual.toDual r.score)
        (scanResults docs emb documentIds projectId)).mem_iff.mp hmem
      exact scanResults_rank docs emb documentIds projectId r this

/-! ## C4: provider failure during search -/

theorem vecNorm_replicate_zero (n : Nat) : vecNorm (List.replicate n (0 : ℝ)) = 0 := by
  simp [vecNorm]

theorem cosine_similarity_zero_left {a b : List ℝ} (h : vecNorm a = 0) :
    cosine_similarity a b = 0 := by
  unfold cosine_similarity
  rw [if_pos (Or.inl h)]

theorem scanResults_score_zero {q : List ℝ} (hq : vecNorm q = 0) (docs : Store)
    (documentIds : Option (List (List Char))) (projectId : Option (List Char)) :
    ∀ r ∈ scanResults docs q documentIds projectId, r.score = 0 := by
  intro r hr
  rw [scanResults, List.mem_flatMap] at hr
  obtain ⟨p, _, hrp⟩ := hr
  by_cases h1 : skipByProject p.2.metadata projectId
  · rw [if_pos h1] at hrp
    simp at hrp
  · rw [if_neg h1] at hrp
    by_cases h2 : skipByIds p.1 documentIds
    · rw [if_pos h2] at hrp
      simp at hrp
    · rw [if_neg h2] at hrp
      rw [List.mem_map] at hrp
      obtain ⟨ch, _, hch⟩ := hrp
      rw [← hch]
      exact cosine_similarity_zero_left hq

/-- C4 (amended): if the embedding-provider call for the query fails,
`_get_embedding` catches the exception and substitutes a 1536-dimensional
zero vector, and `search` proceeds normally — every returned result carries
similarity score 0 (the cosine of the zero-norm query) instead of the search
surfacing as an error. -/
theorem c4_search_embed_failure (e : String) (docs : Store)
    (documentIds : Option (List (List Char))) (projectId : Option (List Char))
    (topK : Nat) :
    ∀ r ∈ search docs (Except.error e) documentIds projectId topK, r.score = 0 := by
  intro r hr
  have hs : search docs (Except.error e) documentIds projectId topK =
      assignRanks 1 ((pySort (fun r => OrderDual.toDual r.score)
        (scanResults docs (List.replicate 1536 0) documentIds projectId)).take topK) := rfl
  rw [hs] at hr
  obtain ⟨a, ha, j, rfl⟩ := mem_assignRanks hr
  show a.score = 0
  have hmem : a ∈ pySort (fun r : SearchResult => OrderDual.toDual r.score)
      (scanResults docs (List.replicate 1536 0) documentIds projectId) :=
    (List.take_sublist _ _).mem ha
  have hscan := (pySort_perm (fun r : SearchResult => OrderDual.toDual r.score)
    (scanResults docs (List.replicate 1536 0) documentIds projectId)).mem_iff.mp hmem
  exact scanResults_score_zero (vecNorm_replicate_zero 1536) docs documentIds projectId a hscan

def c4demoStore : Store :=
  [("d".data, { metadata := { filename := some "f".data, projectId := none },
                chunks := [{ index := 0, text := "t".data, embedding := [1] }] })]

noncomputable def c4demoResult : SearchResult :=
  { text := "t".data, metadata := { filename := some "f".data, projectId := none },
    docId := "d".data, chunkIndex := 0,
    score := cosine_similarity (List.replicate 1536 0) [1], rank := 1 }

/-- C4 counterexample: on a concrete one-chunk store, a failed
embedding-provider call during search does not surface as a failed search —
`search` returns an ordinary non-empty scored result list (one result with
rank 1 and similarity score 0), exactly as if the query had embedded to the
zero vector. -/
theorem c4_search_embed_failure_counterexample :
    search c4demoStore (Except.error "boom") none none 5 ≠ [] ∧
      (search c4demoStore (Except.error "boom") none none 5).map SearchResult.rank = [1] ∧
      (search c4demoStore (Except.error "boom") none none 5).map SearchResult.score = [0] := by
  have hs : search c4demoStore (Except.error "boom") none none 5 = [c4demoResult] := rfl
  refine ⟨by rw [hs]; simp, by rw [hs]; rfl, ?_⟩
  rw [hs]
  show [cosine_similarity (List.replicate 1536 0) [1]] = [0]
  rw [cosine_similarity_zero_left (vecNorm_replicate_zero 1536)]

/-- C4 witness: the amended theorem applied to the concrete store. -/
theorem c4_search_embed_failure_witness :
    c4demoResult ∈ search c4demoStore (Except.error "boom") none none 5 ∧
      c4demoResult.score = 0 := by
  have hmem : c4demoResult ∈ search c4demoStore (Except.error "boom") none none 5 := by
    have hs : search c4demoStore (Except.error "boom") none none 5 = [c4demoResult] := rfl
    rw [hs]
    exact List.mem_singleton.mpr rfl
  exact ⟨hmem, c4_search_embed_failure "boom" c4demoStore none none 5 c4demoResult hmem⟩

/-! ## Source attribution (`OrchestratorAgent._extract_actual_sources`)

Context documents arrive as search-result dicts; the fields the function
reads are `metadata.get('filename', ...)`, `text` and `score`. Scores and
relevance values are exact rationals standing in for Python floats; float
constants are written `mkRat n 100`. -/

structure CtxDoc where
  filename : Option (List Char)
  text : List Char
  score : ℚ
deriving DecidableEq

structure Source where
  filename : List Char
  relevance : ℚ
deriving DecidableEq

/-- `metadata.get('filename', '')`. -/
def getFilename (d : CtxDoc) : List Char := d.filename.getD []

/-- `DocumentAgent.normalize_document_name`: the fixed keyword to
canonical-name mapping, a chain of substring tests on the lower-cased
filename in source order (Python `and` binds tighter than `or`). -/
def normalize_document_name (filename : List Char) : List Char :=
  let f := toLowerStr filename
  if containsSub f "ebitda".data || containsSub f "profitability".data ||
      containsSub f "margin".data then "EBITDA Analysis".data
  else if containsSub f "financial".data &&
      (containsSub f "statement".data || containsSub f "report".data) then
    "Annual Financial Statements".data
  else if containsSub f "cash".data &&
      (containsSub f "flow".data || containsSub f "analysis".data) then
    "Cash Flow Analysis".data
  else if containsSub f "revenue".data || containsSub f "sales".data then
    "Revenue Projections".data
  else if containsSub f "litigation".data || containsSub f "lawsuit".data then
    "Pending Litigation Summary".data
  else if containsSub f "intellectual".data || containsSub f "property".data ||
      containsSub f "ip".data then "Intellectual Property Portfolio".data
  else if containsSub f "employment".data ||
      (containsSub f "contract".data && containsSub f "employee".data) then
    "Employment Contracts".data
  else if containsSub f "customer".data && containsSub f "contract".data then
    "Customer Contracts (Top 10)".data
  else if containsSub f "compliance".data || containsSub f "regulatory".data then
    "Regulatory Compliance Report".data
  else if containsSub f "customer".data &&
      (containsSub f "acquisition".data || containsSub f "cac".data) then
    "Customer Acquisition Analysis".data
  else if containsSub f "market".data && containsSub f "analysis".data then
    "Market Analysis Report".data
  else if containsSub f "competitive".data || containsSub f "landscape".data then
    "Competitive Landscape".data
  else if containsSub f "it".data && containsSub f "infrastructure".data then
    "IT Infrastructure Overview".data
  else if containsSub f "employee".data || containsSub f "bios".data then
    "Key Employee Bios".data
  else if containsSub f "organizational".data || containsSub f "org".data then
    "Organizational Chart".data
  else if containsSub f "product".data && containsSub f "roadmap".data then
    "Product Roadmap".data
  else filename

/-! ### Explicit document-count request detection

The nine `re.search` patterns of the question-detection block, tried in
source order. Each matcher recognises its pattern anchored at one position;
`searchPat` scans positions left to right (`re.search` leftmost-match).
Greedy `\s+`/`\d+` followed by a disjoint character class need no
backtracking, and a trailing optional group `(?:\s+\w+)?` never affects
acceptance, so patterns 1/3 and 2/4 have identical matchers. -/

/-- Match a literal, returning the rest of the input. -/
def matchLit : List Char → List Char → Option (List Char)
  | [], s => some s
  | _ :: _, [] => none
  | p :: ps, c :: cs => if p = c then matchLit ps cs else none

/-- Regex `\s+` (greedy). -/
def matchSpaces1 : List Char → Option (List Char)
  | [] => none
  | c :: cs => if pyIsSpace c then some (cs.dropWhile pyIsSpace) else none

def digitsToNat (ds : List Char) : Nat :=
  ds.foldl (fun acc c => 10 * acc + (c.toNat - '0'.toNat)) 0

/-- Regex `(\d+)` (greedy), returning the captured value. -/
def matchDigits1 : List Char → Option (Nat × List Char)
  | [] => none
  | c :: cs =>
    if pyIsDigit c then
      some (digitsToNat (c :: cs.takeWhile pyIsDigit), cs.dropWhile pyIsDigit)
    else none

/-- Pattern `first\s+two\s+documents?` (with or without the optional
trailing `(?:\s+\w+)?`, which cannot fail), anchored at one position. -/
def pFirstTwoAt (s : List Char) : Option Nat := do
  let s1 ← matchLit "first".data s
  let s2 ← matchSpaces1 s1
  let s3 ← matchLit "two".data s2
  let s4 ← matchSpaces1 s3
  let _ ← matchLit "document".data s4
  pure 2

/-- Pattern `first\s+(\d+)\s+documents?` (trailing optional group
irrelevant), anchored at one position. -/
def pFirstNAt (s : List Char) : Option Nat := do
  let s1 ← matchLit "first".data s
  let s2 ← matchSpaces1 s1
  let (n, s3) ← matchDigits1 s2
  let s4 ← matchSpaces1 s3
  let _ ← matchLit "document".data s4
  pure n

/-- Pattern `two\s+documents?`, anchored. -/
def pTwoAt (s : List Char) : Option Nat := do
  let s1 ← matchLit "two".data s
  let s2 ← matchSpaces1 s1
  let _ ← matchLit "document".data s2
  pure 2

/-- Pattern `both\s+documents?`, anchored. -/
def pBothAt (s : List Char) : Option Nat := do
  let s1 ← matchLit "both".data s
  let s2 ← matchSpaces1 s1
  let _ ← matchLit "document".data s2
  pure 2

/-- Pattern `all\s+three\s+documents?`, anchored. -/
def pAllThreeAt (s : List Char) : Option Nat := do
  let s1 ← matchLit "all".data s
  let s2 ← matchSpaces1 s1
  let s3 ← matchLit "three".data s2
  let s4 ← matchSpaces1 s3
  let _ ← matchLit "document".data s4
  pure 3

/-- Pattern `all\s+(\d+)\s+documents?`, anchored. -/
def pAllNAt (s : List Char) : Option Nat := do
  let s1 ← matchLit "all".data s
  let s2 ← matchSpaces1 s1
  let (n, s3) ← matchDigits1 s2
  let s4 ← matchSpaces1 s3
  let _ ← matchLit "document".data s4
  pure n

/-- Pattern `(\d+)\s+documents?`, anchored. -/
def pNDocsAt (s : List Char) : Option Nat := do
  let (n, s1) ← matchDigits1 s
  let s2 ← matchSpaces1 s1
  let _ ← matchLit "document".data s2
  pure n

/-- `re.search`: try the anchored matcher at every position, left to
right. -/
def searchPat (f : List Char → Option Nat) : List Char → Option Nat
  | [] => f []
  | c :: cs =>
    match f (c :: cs) with
    | some v => some v
    | none => searchPat f cs

/-- The question-detection block: try the patterns in source order, first
match wins; `none` models Python's `requested_doc_count = None`. -/
def detectRequestedCount (questionLower : List Char) : Option Nat :=
  match searchPat pFirstTwoAt questionLower with
  | some v => some v
  | none =>
    match searchPat pFirstNAt questionLower with
    | some v => some v
    | none =>
      match searchPat pTwoAt questionLower with
      | some v => some v
      | none =>
        match searchPat pBothAt questionLower with
        | some v => some v
        | none =>
          match searchPat pAllThreeAt questionLower with
          | some v => some v
          | none =>
            match searchPat pAllNAt questionLower with
            | some v => some v
            | none => searchPat pNDocsAt questionLower

/-- Python `if requested_doc_count and requested_doc_count > 1` (`0` is
falsy, and `0 > 1` is false anyway). -/
def requestedGT1 : Option Nat → Bool
  | none => false
  | some n => decide (1 < n)

example : detectRequestedCount "first two documents".data = some 2 := by decide
example : detectRequestedCount "please compare the first 4 documents now".data = some 4 := by decide
example : detectRequestedCount "both documents".data = some 2 := by decide
example : detectRequestedCount "what is revenue".data = none := by decide
example : normalize_document_name "ebitda_report.pdf".data = "EBITDA Analysis".data := by decide
example : normalize_document_name "aa.txt".data = "aa.txt".data := by decide

/-! ### Explicit document-name mention detection -/

/-- Python `s.rsplit('.', 1)[0]`: everything before the last `'.'` (the
whole string when there is none). -/
def rsplitDotHead (s : List Char) : List Char :=
  match rfindChar s '.' 0 s.length with
  | some i => s.take i
  | none => s

/-- The filename-parts checks (`"project_1_doc_25.txt"`-style): split the
extensionless name on `'_'`; with at least two parts, test the last part
(when at least 2 characters long) as `"25"`, `"doc_25"` or `"doc 25"`; with
at least three parts, also test the last two parts joined by `'_'` against
the answer with spaces replaced by underscores, or joined by `' '` against
the answer. -/
def partsCheck (answerLower base : List Char) : Bool :=
  let parts := pySplitOn '_' base
  if 2 ≤ parts.length then
    let lastP := (parts.getLast?).getD []
    let sndLast := parts.getD (parts.length - 2) []
    (2 ≤ lastP.length &&
      (containsSub answerLower lastP ||
       containsSub answerLower ("doc_".data ++ lastP) ||
       containsSub answerLower ("doc ".data ++ lastP))) ||
    (3 ≤ parts.length &&
      (containsSub (answerLower.map fun c => if c = ' ' then '_' else c)
          (sndLast ++ '_' :: lastP) ||
       containsSub answerLower (sndLast ++ ' ' :: lastP)))
  else false

/-- The per-document mention checks of the detection loop, in source order.
The regex variants wrap the escaped literal in optional punctuation
character classes on both sides, so each accepts exactly when the literal
occurs as a substring; they are therefore modelled by the substring test
that the source pairs them with. -/
def mentionedIn (answerLower : List Char) (filename : List Char) : Bool :=
  let fl := toLowerStr filename
  let nl := toLowerStr (normalize_document_name filename)
  containsSub answerLower fl ||
  containsSub answerLower nl ||
  containsSub answerLower (rsplitDotHead fl) ||
  containsSub answerLower (rsplitDotHead nl) ||
  partsCheck answerLower (rsplitDotHead fl)

/-- The detection loop over the context: documents with a non-empty
filename that the answer mentions, as `(normalized_name, filename_lower)`
pairs. -/
def mentionedNames (answerLower : List Char) (context : List CtxDoc) :
    List (List Char × List Char) :=
  context.filterMap fun d =>
    let f := getFilename d
    if f ≠ [] && mentionedIn answerLower f then
      some (normalize_document_name f, toLowerStr f)
    else none

/-- The candidate-sources fallback of the detection loop (tuples keep the
candidate in original case on both components, as in the source). -/
def candidateNames (answerLower : List Char) (candidates : List (List Char)) :
    List (List Char × List Char) :=
  candidates.filterMap fun cand =>
    let cl := toLowerStr cand
    if containsSub answerLower cl || containsSub answerLower (rsplitDotHead cl) then
      some (cand, cand)
    else none

/-- `answer_doc_names` after the candidate fallback. -/
def effectiveAnswerDocNames (answerLower : List Char) (context : List CtxDoc)
    (candidates : List (List Char)) : List (List Char × List Char) :=
  let n0 := mentionedNames answerLower context
  if n0 = [] then candidateNames answerLower candidates else n0

/-! ### Per-document chunk accounting -/

/-- Keep the first occurrence of each key (a Python dict built by
first-wins insertion), carrying the set of keys already seen. -/
def dedupByKeyGo {α κ : Type} [DecidableEq κ] (key : α → κ) (seen : List κ) :
    List α → List α
  | [] => []
  | a :: l =>
    if seen.contains (key a) then dedupByKeyGo key seen l
    else a :: dedupByKeyGo key (key a :: seen) l

def dedupByKey {α κ : Type} [DecidableEq κ] (key : α → κ) (l : List α) : List α :=
  dedupByKeyGo key [] l

/-- The normalized names of the context documents with a non-empty
filename, one entry per chunk, in scan order. -/
def normNamesSeq (context : List CtxDoc) : List (List Char) :=
  context.filterMap fun d =>
    let f := getFilename d
    if f ≠ [] then some (normalize_document_name f) else none

/-- The keys of `doc_chunk_counts` (a dict keyed by normalized name in
first-occurrence order). -/
def distinctNormNames (context : List CtxDoc) : List (List Char) :=
  dedupByKey id (normNamesSeq context)

/-- `doc_chunk_counts[name]`: how many context chunks carry this normalized
name. -/
def chunkCountOf (context : List CtxDoc) (name : List Char) : Nat :=
  (normNamesSeq context).count name

/-- `doc_highest_scores[name]`: the highest chunk score of this normalized
name (initialised to 0, updated on strict improvement). -/
def highScoreOf (context : List CtxDoc) (name : List Char) : ℚ :=
  context.foldl
    (fun acc d =>
      if getFilename d ≠ [] && normalize_document_name (getFilename d) = name &&
          acc < d.score then d.score
      else acc) 0

/-- The `doc_chunk_counts` / `doc_highest_scores` pair of insertion-ordered
dicts, as the list of (name, chunk count, highest score) per distinct name
in first-occurrence order. -/
def docChunkCounts (context : List CtxDoc) : List (List Char × Nat × ℚ) :=
  (distinctNormNames context).map fun n =>
    (n, chunkCountOf context n, highScoreOf context n)

/-- `context_order_map.get(name, 999)`: the index (over the full context
enumeration) of the first document carrying this normalized name, defaulting
to 999 when no document does. -/
def ctxOrderGo (name : List Char) : Nat → List CtxDoc → Nat
  | _, [] => 999
  | i, d :: ds =>
    if getFilename d ≠ [] && normalize_document_name (getFilename d) = name then i
    else ctxOrderGo name (i + 1) ds

def ctxOrder (context : List CtxDoc) (name : List Char) : Nat :=
  ctxOrderGo name 0 context

/-! ### The result branches -/

structure ContribDoc where
  filename : List Char
  relevance : ℚ
  chunksUsed : Nat
deriving DecidableEq

/-- `min(0.95, 0.7 + highest_score * 0.2)`. -/
def relFromHigh (s : ℚ) : ℚ := min (mkRat 95 100) (mkRat 7 10 + s * mkRat 2 10)

/-- `contributing_docs`: the chunk-count dict sorted descending by
(chunk count, highest score) — Python tuple comparison under
`reverse=True` — keeping entries with a positive chunk count. -/
def contributingDocs (context : List CtxDoc) : List ContribDoc :=
  (pySort (fun t : List Char × Nat × ℚ => OrderDual.toDual (toLex (t.2.1, t.2.2)))
      (docChunkCounts context)).filterMap fun t =>
    if 0 < t.2.1 then
      some { filename := t.1, relevance := relFromHigh t.2.2, chunksUsed := t.2.1 }
    else none

/-- The chunk-based branch: with an explicit request for more than one
document, re-sort ascending by (context order, -chunks, -relevance) — the
negated numeric keys are dual orders — and take the requested count;
otherwise return every contributing document. `chunks_used` is dropped from
the returned dicts. -/
def chunkBranch (context : List CtxDoc) (requested : Option Nat) : List Source :=
  let contributing := contributingDocs context
  if requestedGT1 requested then
    let ordered := pySort (fun c : ContribDoc =>
        toLex (ctxOrder context c.filename,
          toLex (OrderDual.toDual c.chunksUsed, OrderDual.toDual c.relevance)))
      contributing
    (ordered.take (requested.getD 0)).map fun c =>
      { filename := c.filename, relevance := c.relevance }
  else
    contributing.map fun c => { filename := c.filename, relevance := c.relevance }

/-- For a mentioned original name, the relevance (default `0.90`, else
`min(0.95, 0.7 + score*0.2)` of the first context document whose lower-cased
filename equals it) and that document's chunk count. -/
def findCtxScore (context : List CtxDoc) (orig : List Char) : ℚ × Nat :=
  match context.find? (fun d =>
      getFilename d ≠ [] && decide (toLowerStr (getFilename d) = toLowerStr orig)) with
  | some d => (relFromHigh d.score,
      chunkCountOf context (normalize_document_name (getFilename d)))
  | none => (mkRat 90 100, 0)

/-- The explicit-mention branch (`unique_mentioned` is the detected list
deduplicated by original filename, first wins). -/
def mentionBranch (context : List CtxDoc) (names : List (List Char × List Char))
    (requested : Option Nat) : List Source :=
  let uniq := dedupByKey (fun p : List Char × List Char => p.2) names
  if 1 < uniq.length then
    if requestedGT1 requested && requested.getD 0 < uniq.length then
      let result : List ContribDoc := uniq.map fun p =>
        let sc := findCtxScore context p.2
        { filename := p.1, relevance := sc.1, chunksUsed := sc.2 }
      let sorted := pySort (fun c : ContribDoc =>
          OrderDual.toDual (toLex (c.chunksUsed, c.relevance))) result
      (sorted.take (requested.getD 0)).map fun c =>
        { filename := c.filename, relevance := c.relevance }
    else
      uniq.map fun p => { filename := p.1, relevance := (findCtxScore context p.2).1 }
  else
    match context.find? (fun d =>
        getFilename d ≠ [] &&
          uniq.any fun p => decide (p.2 = toLowerStr (getFilename d))) with
    | some d =>
      match uniq.find? (fun p => decide (p.2 = toLowerStr (getFilename d))) with
      | some p => [{ filename := p.1, relevance := mkRat 95 100 }]
      | none => [{ filename := [], relevance := mkRat 95 100 }]
    | none =>
      match uniq with
      | [] => []
      | p :: _ => [{ filename := p.1, relevance := mkRat 90 100 }]

/-! ### Keyword-scoring fallback -/

set_option linter.unusedVariables false in
/-- Regex `re.findall(r'\d+[\.\,]?\d*', answer)`: maximal digit runs,
optionally extended by one `.` or `,` and further digits; matches are
non-overlapping, scanning left to right. -/
def findNumbers : List Char → List (List Char)
  | [] => []
  | c :: cs =>
    if pyIsDigit c then
      let d1 := c :: cs.takeWhile pyIsDigit
      match h9 : cs.dropWhile pyIsDigit with
      | [] => [d1]
      | sep :: rest2 =>
        if sep = '.' || sep = ',' then
          (d1 ++ sep :: rest2.takeWhile pyIsDigit) ::
            findNumbers (rest2.dropWhile pyIsDigit)
        else d1 :: findNumbers (sep :: rest2)
    else findNumbers cs
termination_by s => s.length
decreasing_by
  · have h1 : (cs.dropWhile pyIsDigit).length ≤ cs.length :=
      (List.dropWhile_sublist _).length_le
    have h2 : (rest2.dropWhile pyIsDigit).length ≤ rest2.length :=
      (List.dropWhile_sublist _).length_le
    have h3 := congrArg List.length h9
    simp at h3 ⊢
    omega
  · have h1 : (cs.dropWhile pyIsDigit).length ≤ cs.length :=
      (List.dropWhile_sublist _).length_le
    have h3 := congrArg List.length h9
    simp at h3 ⊢
    omega
  · simp

/-- The stop-word set of the answer-term extraction. -/
def scoringStopWords : List (List Char) :=
  ["that".data, "this".data, "with".data, "from".data, "have".data,
   "been".data, "they".data, "what".data, "when".data, "where".data,
   "were".data, "about".data, "which".data, "there".data, "their".data,
   "them".data, "then".data, "than".data, "these".data, "those".data,
   "would".data, "could".data, "should".data, "might".data, "will".data,
   "shall".data]

/-- `answer_words`: split the answer on whitespace; keep words whose
punctuation-stripped form has at least 4 characters and whose lower-cased
form is not a stop word; the kept value is the stripped, lower-cased
word. -/
def answerWords (answer : List Char) : List (List Char) :=
  (pySplitWs answer).filterMap fun w =>
    if 4 ≤ (stripPunct w).length && decide (toLowerStr w ∉ scoringStopWords) then
      some (toLowerStr (stripPunct w))
    else none

/-- `answer_terms`: the set built from the top 20 answer words by length
(stable sort descending by length, then `set(...)`); only distinct members
matter, kept in first-occurrence order. -/
def answerTerms (answer : List Char) : List (List Char) :=
  dedupByKey id
    ((pySort (fun w : List Char => OrderDual.toDual w.length) (answerWords answer)).take 20)

structure ScoreEntry where
  filename : List Char
  origFilename : List Char
  score : Nat
  matchingNumbers : Nat
  matchingTerms : Nat
deriving DecidableEq

/-- The document-scoring loop building `source_scores`: per context
document with a non-empty, not yet seen filename and non-empty text, count
answer numbers and answer terms occurring in the lower-cased document text,
add +10 for an explicit mention, +5 per matching number, +1 per matching
term, +1 for a candidate source, +2/+1 for high vector score, and keep the
entry when any evidence exists (adding the original filename to the seen
set only then). -/
def sourceScoresGo (answerLower : List Char) (numbers : List (List Char))
    (terms : List (List Char)) (candidates : List (List Char))
    (names : List (List Char × List Char)) :
    List (List Char) → List CtxDoc → List ScoreEntry
  | _, [] => []
  | seen, d :: ds =>
    let f := getFilename d
    if f = [] || seen.contains f then
      sourceScoresGo answerLower numbers terms candidates names seen ds
    else
      let nl := normalize_document_name f
      let docText := toLowerStr d.text
      if docText = [] then
        sourceScoresGo answerLower numbers terms candidates names seen ds
      else
        let mn := (numbers.filter fun num => containsSub docText num).length
        let mt := (terms.filter fun t => containsSub docText t).length
        let isMentioned := names.any fun p =>
          decide (p.1 = nl) || decide (toLowerStr p.2 = toLowerStr f)
        let sc :=
          (if isMentioned || containsSub answerLower (toLowerStr nl) ||
              containsSub answerLower (toLowerStr f) then 10 else 0) +
          5 * mn + mt +
          (if candidates.contains nl then 1 else 0) +
          (if mkRat 8 10 < d.score then 2
           else if mkRat 6 10 < d.score then 1 else 0)
        if 0 < sc || 0 < mt || 0 < mn then
          { filename := nl, origFilename := f, score := sc,
            matchingNumbers := mn, matchingTerms := mt } ::
            sourceScoresGo answerLower numbers terms candidates names (f :: seen) ds
        else sourceScoresGo answerLower numbers terms candidates names seen ds

/-- `source_scores`, sorted descending by score (stable). -/
def sourceScores (answer answerLower : List Char) (candidates : List (List Char))
    (names : List (List Char × List Char)) (context : List CtxDoc) : List ScoreEntry :=
  pySort (fun e : ScoreEntry => OrderDual.toDual e.score)
    (sourceScoresGo answerLower (findNumbers answer) (answerTerms answer)
      candidates names [] context)

/-- `min(0.95, 0.7 + score / 30)`. -/
def relFromScore (sc : Nat) : ℚ := min (mkRat 95 100) (mkRat 7 10 + (sc : ℚ) / 30)

/-- The scoring branch: all entries with matching numbers; else all entries
with at least 5 matching terms; else the top one or two by score (two when
the runner-up is within 70% of the top score). -/
def scoresBranch (entries : List ScoreEntry) : List Source :=
  let withNumbers := entries.filter fun e => decide (0 < e.matchingNumbers)
  if withNumbers ≠ [] then
    withNumbers.map fun e => { filename := e.filename, relevance := relFromScore e.score }
  else
    let withTerms := entries.filter fun e => decide (5 ≤ e.matchingTerms)
    if withTerms ≠ [] then
      withTerms.map fun e => { filename := e.filename, relevance := relFromScore e.score }
    else
      match entries with
      | e1 :: e2 :: _ =>
        if 0 < e1.score && mkRat 7 10 ≤ (e2.score : ℚ) / (e1.score : ℚ) then
          [{ filename := e1.filename, relevance := mkRat 75 100 },
           { filename := e2.filename, relevance := mkRat 75 100 }]
        else [{ filename := e1.filename, relevance := mkRat 75 100 }]
      | [e1] => [{ filename := e1.filename, relevance := mkRat 75 100 }]
      | [] => []

/-- The candidate-list fallback: the first `min(len, 3)` candidates at
relevance `0.70`. -/
def candBranch (candidates : List (List Char)) : List Source :=
  (candidates.take (min candidates.length 3)).map fun c =>
    { filename := c, relevance := mkRat 70 100 }

/-- The absolute last resort: the first context document, at relevance
`0.50` (`metadata.get('filename', 'Unknown')`; the trailing
`len(result) > 1` check in the source is dead since the list is a
singleton). -/
def lastResortBranch (context : List CtxDoc) : List Source :=
  match context with
  | [] => []
  | d :: _ =>
    [{ filename := normalize_document_name (d.filename.getD "Unknown".data),
       relevance := mkRat 50 100 }]

/-- The fall-through tail of the function: scoring branch, candidate
fallback, last resort. -/
def extractTail (entries : List ScoreEntry) (candidates : List (List Char))
    (context : List CtxDoc) : List Source :=
  if entries ≠ [] then scoresBranch entries
  else if candidates ≠ [] then candBranch candidates
  else lastResortBranch context

/-- `OrchestratorAgent._extract_actual_sources`. Control flow: empty answer
or context yields `[]`; an explicit request for more than one document
clears the detected name mentions (priority 1 beats explicit mentions);
explicit mentions are used next; then documents contributing chunks; then
the keyword-scoring fallback, candidate list, and last resort. The scoring
list is computed from the uncleared mention list, as in the source, where
the scoring loop runs before the clearing step. -/
def extract_actual_sources (answer : List Char) (context : List CtxDoc)
    (candidate_sources : List (List Char)) (question : List Char) : List Source :=
  if answer = [] ∨ context = [] then []
  else
    let answerLower := toLowerStr answer
    let questionLower := toLowerStr question
    let requested := detectRequestedCount questionLower
    let names1 := effectiveAnswerDocNames answerLower context candidate_sources
    let entries := sourceScores answer answerLower candidate_sources names1 context
    let names := if requestedGT1 requested then [] else names1
    if names ≠ [] then mentionBranch context names requested
    else if docChunkCounts context ≠ [] then
      if contributingDocs context ≠ [] then chunkBranch context requested
      else extractTail entries candidate_sources context
    else extractTail entries candidate_sources context

def c2ctx : List CtxDoc :=
  [{ filename := some "aa.txt".data, text := "t".data, score := mkRat 1 2 },
   { filename := some "bb.txt".data, text := "t".data, score := mkRat 1 2 },
   { filename := some "cc.txt".data, text := "t".data, score := mkRat 3 4 },
   { filename := some "cc.txt".data, text := "t".data, score := mkRat 1 4 }]

example :
    (extract_actual_sources "aa.txt bb.txt cc.txt".data c2ctx []
        "first two documents".data).map Source.filename =
      ["aa.txt".data, "bb.txt".data] := by decide

/-! ## C3: attribution is never empty for a non-empty answer and context -/

theorem dedupByKey_ne_nil {α κ : Type} [DecidableEq κ] (key : α → κ) {l : List α}
    (h : l ≠ []) : dedupByKey key l ≠ [] := by
  cases l with
  | nil => exact absurd rfl h
  | cons a t =>
    unfold dedupByKey dedupByKeyGo
    rw [if_neg (by simp)]
    simp

theorem mentionBranch_ne_nil (context : List CtxDoc)
    {names : List (List Char × List Char)} (h : names ≠ [])
    (requested : Option Nat) : mentionBranch context names requested ≠ [] := by
  have huniq : dedupByKey (fun p : List Char × List Char => p.2) names ≠ [] :=
    dedupByKey_ne_nil _ h
  unfold mentionBranch
  by_cases hlen : 1 < (dedupByKey (fun p : List Char × List Char => p.2) names).length
  · rw [if_pos hlen]
    by_cases hreq : (requestedGT1 requested &&
        decide (requested.getD 0 < (dedupByKey (fun p : List Char × List Char => p.2) names).length)) = true
    · rw [if_pos hreq]
      intro hnil
      have hlens := congrArg List.length hnil
      rw [List.length_map, List.length_take, pySort_length, List.length_map] at hlens
      have hr1 : requestedGT1 requested = true := by
        have := hreq
        simp only [Bool.and_eq_true] at this
        exact this.1
      have hrpos : 0 < requested.getD 0 := by
        cases requested with
        | none => simp [requestedGT1] at hr1
        | some n =>
          simp only [requestedGT1, decide_eq_true_eq] at hr1
          simpa using Nat.lt_of_lt_of_le Nat.zero_lt_one (Nat.le_of_lt hr1)
      simp only [List.length_nil] at hlens
      omega
    · rw [if_neg hreq]
      intro hnil
      have := congrArg List.length hnil
      rw [List.length_map] at this
      exact huniq (List.length_eq_zero.mp (by simpa using this))
  · rw [if_neg hlen]
    cases hfind : context.find? (fun d =>
        getFilename d ≠ [] &&
          (dedupByKey (fun p : List Char × List Char => p.2) names).any
            fun p => decide (p.2 = toLowerStr (getFilename d))) with
    | some d =>
      cases hfind2 : (dedupByKey (fun p : List Char × List Char => p.2) names).find?
          (fun p => decide (p.2 = toLowerStr (getFilename d))) with
      | some p => dsimp only; rw [hfind2]; simp
      | none => dsimp only; rw [hfind2]; simp
    | none =>
      cases huq : dedupByKey (fun p : List Char × List Char => p.2) names with
      | nil => exact absurd huq huniq
      | cons p t => simp

theorem chunkBranch_ne_nil {context : List CtxDoc}
    (h : contributingDocs context ≠ []) (requested : Option Nat) :
    chunkBranch context requested ≠ [] := by
  unfold chunkBranch
  by_cases hreq : requestedGT1 requested = true
  · rw [if_pos hreq]
    intro hnil
    have hlens := congrArg List.length hnil
    rw [List.length_map, List.length_take, pySort_length] at hlens
    have hrpos : 0 < requested.getD 0 := by
      cases requested with
      | none => simp [requestedGT1] at hreq
      | some n =>
        simp only [requestedGT1, decide_eq_true_eq] at hreq
        simpa using Nat.lt_of_lt_of_le Nat.zero_lt_one (Nat.le_of_lt hreq)
    have hcpos : 0 < (contributingDocs context).length := List.length_pos.mpr h
    simp only [List.length_nil] at hlens
    omega
  · rw [if_neg hreq]
    intro hnil
    have := congrArg List.length hnil
    rw [List.length_map] at this
    exact h (List.length_eq_zero.mp (by simpa using this))

theorem scoresBranch_ne_nil {entries : List ScoreEntry} (h : entries ≠ []) :
    scoresBranch entries ≠ [] := by
  unfold scoresBranch
  by_cases h1 : entries.filter (fun e => decide (0 < e.matchingNumbers)) ≠ []
  · rw [if_pos h1]
    intro hnil
    have := congrArg List.length hnil
    rw [List.length_map] at this
    exact h1 (List.length_eq_zero.mp (by simpa using this))
  · rw [if_neg h1]
    by_cases h2 : entries.filter (fun e => decide (5 ≤ e.matchingTerms)) ≠ []
    · rw [if_pos h2]
      intro hnil
      have := congrArg List.length hnil
      rw [List.length_map] at this
      exact h2 (List.length_eq_zero.mp (by simpa using this))
    · rw [if_neg h2]
      cases entries with
      | nil => exact absurd rfl h
      | cons e1 t =>
        cases t with
        | nil => simp
        | cons e2 t2 =>
          by_cases h3 : (decide (0 < e1.score) &&
              decide (mkRat 7 10 ≤ (e2.score : ℚ) / (e1.score : ℚ))) = true
          · dsimp only
            rw [if_pos h3]
            simp
          · dsimp only
            rw [if_neg h3]
            simp

theorem candBranch_ne_nil {candidates : List (List Char)} (h : candidates ≠ []) :
    candBranch candidates ≠ [] := by
  unfold candBranch
  intro hnil
  have hlens := congrArg List.length hnil
  rw [List.length_map, List.length_take] at hlens
  have : 0 < candidates.length := List.length_pos.mpr h
  simp only [List.length_nil] at hlens
  omega

theorem lastResortBranch_ne_nil {context : List CtxDoc} (h : context ≠ []) :
    lastResortBranch context ≠ [] := by
  cases context with
  | nil => exact absurd rfl h
  | cons d t => simp [lastResortBranch]

theorem extractTail_ne_nil (entries : List ScoreEntry) (candidates : List (List Char))
    {context : List CtxDoc} (hctx : context ≠ []) :
    extractTail entries candidates context ≠ [] := by
  unfold extractTail
  by_cases h1 : entries ≠ []
  · rw [if_pos h1]
    exact scoresBranch_ne_nil h1
  · rw [if_neg h1]
    by_cases h2 : candidates ≠ []
    · rw [if_pos h2]
      exact candBranch_ne_nil h2
    · rw [if_neg h2]
      exact lastResortBranch_ne_nil hctx

theorem mentionedNames_nil_of_empty {answerLower : List Char} {context : List CtxDoc}
    (h : ∀ d ∈ context, getFilename d = []) :
    mentionedNames answerLower context = [] := by
  unfold mentionedNames
  rw [List.filterMap_eq_nil_iff]
  intro d hd
  rw [h d hd]
  simp

theorem normNamesSeq_nil_of_empty {context : List CtxDoc}
    (h : ∀ d ∈ context, getFilename d = []) : normNamesSeq context = [] := by
  unfold normNamesSeq
  rw [List.filterMap_eq_nil_iff]
  intro d hd
  rw [h d hd]
  simp

theorem sourceScoresGo_nil_of_empty (answerLower : List Char)
    (numbers terms candidates : List (List Char))
    (names : List (List Char × List Char)) :
    ∀ (seen : List (List Char)) (context : List CtxDoc),
      (∀ d ∈ context, getFilename d = []) →
      sourceScoresGo answerLower numbers terms candidates names seen context = [] := by
  intro seen context
  induction context generalizing seen with
  | nil => intro _; rfl
  | cons d ds ih =>
    intro h
    rw [sourceScoresGo]
    rw [if_pos]
    · exact ih seen fun x hx => h x (List.mem_cons_of_mem d hx)
    · rw [h d (List.mem_cons_self d ds)]
      simp

/-- C3 (amended): for every non-empty answer string and non-empty
retrieved-context list, `_extract_actual_sources` returns at least one
source entry, and in the last-resort case (no document has a filename and
there are no candidate sources) the single returned source is the first
context document at relevance `0.50`. The non-emptiness of the answer is
necessary: the function's first guard returns `[]` for an empty answer (see
the counterexample). -/
theorem c3_extract_never_empty (answer question : List Char) (context : List CtxDoc)
    (candidate_sources : List (List Char)) (ha : answer ≠ []) (hc : context ≠ []) :
    extract_actual_sources answer context candidate_sources question ≠ [] ∧
      ((∀ d ∈ context, getFilename d = []) → candidate_sources = [] →
        extract_actual_sources answer context candidate_sources question =
          [{ filename := normalize_document_name
               ((context.head hc).filename.getD "Unknown".data),
             relevance := mkRat 50 100 }]) := by
  have hguard : ¬(answer = [] ∨ context = []) := not_or.mpr ⟨ha, hc⟩
  have htail : ∀ es : List ScoreEntry,
      (if docChunkCounts context ≠ [] then
        if contributingDocs context ≠ []
        then chunkBranch context (detectRequestedCount (toLowerStr question))
        else extractTail es candidate_sources context
      else extractTail es candidate_sources context) ≠ [] := by
    intro es
    by_cases hcounts : docChunkCounts context ≠ []
    · rw [if_pos hcounts]
      by_cases hcontrib : contributingDocs context ≠ []
      · rw [if_pos hcontrib]
        exact chunkBranch_ne_nil hcontrib _
      · rw [if_neg hcontrib]
        exact extractTail_ne_nil _ _ hc
    · rw [if_neg hcounts]
      exact extractTail_ne_nil _ _ hc
  constructor
  · unfold extract_actual_sources
    rw [if_neg hguard]
    dsimp only
    by_cases hreq : requestedGT1 (detectRequestedCount (toLowerStr question)) = true
    · rw [if_pos hreq, if_neg (by simp)]
      exact htail _
    · rw [if_neg hreq]
      by_cases heffn : effectiveAnswerDocNames (toLowerStr answer) context
          candidate_sources ≠ []
      · rw [if_pos heffn]
        exact mentionBranch_ne_nil context heffn _
      · rw [if_neg heffn]
        exact htail _
  · intro hall hcand
    have h1 : mentionedNames (toLowerStr answer) context = [] :=
      mentionedNames_nil_of_empty hall
    have heff : effectiveAnswerDocNames (toLowerStr answer) context candidate_sources = [] := by
      unfold effectiveAnswerDocNames
      rw [h1, if_pos rfl, hcand]
      rfl
    have hseq : normNamesSeq context = [] := normNamesSeq_nil_of_empty hall
    have hcounts : docChunkCounts context = [] := by
      unfold docChunkCounts distinctNormNames
      rw [hseq]
      rfl
    have hentries : sourceScores answer (toLowerStr answer) candidate_sources [] context = [] := by
      unfold sourceScores
      rw [sourceScoresGo_nil_of_empty _ _ _ _ _ [] context hall]
      rfl
    unfold extract_actual_sources
    rw [if_neg hguard]
    dsimp only
    rw [heff, ite_self]
    rw [if_neg (by simp), hcounts]
    rw [if_neg (by simp)]
    unfold extractTail
    rw [hentries]
    rw [if_neg (by simp), if_neg (by simp [hcand])]
    obtain ⟨d, rest, rfl⟩ : ∃ d rest, context = d :: rest := by
      cases context with
      | nil => exact absurd rfl hc
      | cons d rest => exact ⟨d, rest, rfl⟩
    rfl

def c3ctx : List CtxDoc :=
  [{ filename := some "aa.txt".data, text := "t".data, score := mkRat 1 2 }]

/-- C3 counterexample: the claim quantifies over every answer string, but
for the empty answer string and a non-empty context the function's first
guard returns the empty source list. -/
theorem c3_extract_never_empty_counterexample :
    c3ctx ≠ [] ∧ extract_actual_sources [] c3ctx [] "q".data = [] := by
  decide

def c3ctxNoNames : List CtxDoc :=
  [{ filename := some [], text := "t".data, score := mkRat 1 2 }]

/-- C3 witness: the amended theorem applied to a concrete store whose single
document has an empty filename, hitting the last-resort branch. -/
theorem c3_extract_never_empty_witness :
    ("z".data ≠ ([] : List Char)) ∧ c3ctxNoNames ≠ [] ∧
      extract_actual_sources "z".data c3ctxNoNames [] "q".data ≠ [] ∧
      extract_actual_sources "z".data c3ctxNoNames [] "q".data =
        [{ filename := normalize_document_name
             ((c3ctxNoNames.head (by decide)).filename.getD "Unknown".data),
           relevance := mkRat 50 100 }] := by
  have h := c3_extract_never_empty "z".data "q".data c3ctxNoNames []
    (by decide) (by decide)
  exact ⟨by decide, by decide, h.1, h.2 (by decide) rfl⟩

/-! ## C2: explicit "first two documents" requests -/

theorem matchLit_self_append : ∀ (p s : List Char), matchLit p (p ++ s) = some s := by
  intro p
  induction p with
  | nil => intro s; rfl
  | cons c cs ih =>
    intro s
    show matchLit (c :: cs) (c :: (cs ++ s)) = some s
    rw [matchLit, if_pos rfl]
    exact ih s

/-- The first detection pattern accepts at the start of any occurrence of
the literal phrase. -/
theorem pFirstTwoAt_on (suf : List Char) :
    pFirstTwoAt ("first two documents".data ++ suf) = some 2 := rfl

/-- The first detection pattern can only ever produce the value 2. -/
theorem pFirstTwoAt_val {s : List Char} {v : Nat} (h : pFirstTwoAt s = some v) :
    v = 2 := by
  simp only [pFirstTwoAt, Option.bind_eq_bind, Option.bind_eq_some, Option.pure_def,
    Option.some.injEq] at h
  obtain ⟨_, _, _, _, _, _, _, _, _, _, hv⟩ := h
  exact hv.symm

theorem searchPat_exists {f : List Char → Option Nat} :
    ∀ (pre suf : List Char) {v : Nat}, f suf = some v →
      ∃ w, searchPat f (pre ++ suf) = some w := by
  intro pre
  induction pre with
  | nil =>
    intro suf v h
    cases suf with
    | nil => exact ⟨v, h⟩
    | cons c cs =>
      show ∃ w, (match f (c :: cs) with
        | some u => some u | none => searchPat f cs) = some w
      rw [h]
      exact ⟨v, rfl⟩
  | cons c cs ih =>
    intro suf v h
    show ∃ w, (match f (c :: (cs ++ suf)) with
      | some u => some u | none => searchPat f (cs ++ suf)) = some w
    cases hf : f (c :: (cs ++ suf)) with
    | some u => exact ⟨u, rfl⟩
    | none =>
      obtain ⟨w, hw⟩ := ih suf h
      exact ⟨w, hw⟩

theorem searchPat_val {f : List Char → Option Nat}
    (hf : ∀ s v, f s = some v → v = 2) :
    ∀ (l : List Char) (w : Nat), searchPat f l = some w → w = 2 := by
  intro l
  induction l with
  | nil => intro w h; exact hf [] w h
  | cons c cs ih =>
    intro w h
    rw [searchPat] at h
    cases hf2 : f (c :: cs) with
    | some u =>
      rw [hf2] at h
      cases h
      exact hf _ _ hf2
    | none =>
      rw [hf2] at h
      exact ih w h

theorem startsWith_exists : ∀ {pat s : List Char}, startsWith pat s = true →
    ∃ suf, s = pat ++ suf := by
  intro pat
  induction pat with
  | nil => intro s _; exact ⟨s, rfl⟩
  | cons p ps ih =>
    intro s h
    cases s with
    | nil => exact absurd h (by simp [startsWith])
    | cons c cs =>
      rw [startsWith, Bool.and_eq_true, decide_eq_true_eq] at h
      obtain ⟨suf, hsuf⟩ := ih h.2
      exact ⟨suf, by rw [h.1, hsuf]; rfl⟩

theorem containsSub_exists : ∀ {s pat : List Char}, containsSub s pat = true →
    ∃ pre suf, s = pre ++ (pat ++ suf) := by
  intro s
  induction s with
  | nil =>
    intro pat h
    rw [containsSub] at h
    obtain ⟨suf, hsuf⟩ := startsWith_exists h
    exact ⟨[], suf, hsuf⟩
  | cons c cs ih =>
    intro pat h
    rw [containsSub, Bool.or_eq_true] at h
    cases h with
    | inl h =>
      obtain ⟨suf, hsuf⟩ := startsWith_exists h
      exact ⟨[], suf, hsuf⟩
    | inr h =>
      obtain ⟨pre, suf, hsplit⟩ := ih h
      exact ⟨c :: pre, suf, by rw [hsplit]; rfl⟩

/-- A question whose lower-cased text contains the literal phrase
`"first two documents"` makes the detection block report a request for
exactly 2 documents (the first pattern matches and wins). -/
theorem detect_first_two {ql : List Char}
    (h : containsSub ql "first two documents".data = true) :
    detectRequestedCount ql = some 2 := by
  obtain ⟨pre, suf, hsplit⟩ := containsSub_exists h
  obtain ⟨w, hw⟩ := searchPat_exists pre ("first two documents".data ++ suf)
    (pFirstTwoAt_on suf)
  rw [← hsplit] at hw
  have hw2 : w = 2 := searchPat_val (fun s v hv => pFirstTwoAt_val hv) ql w hw
  rw [detectRequestedCount, hw, hw2]

theorem mem_dedupByKeyGo_sub {α κ : Type} [DecidableEq κ] (key : α → κ) :
    ∀ (seen : List κ) (l : List α) (a : α), a ∈ dedupByKeyGo key seen l → a ∈ l := by
  intro seen l
  induction l generalizing seen with
  | nil => intro a h; exact absurd h (by simp [dedupByKeyGo])
  | cons b bs ih =>
    intro a h
    rw [dedupByKeyGo] at h
    by_cases hc : seen.contains (key b) = true
    · rw [if_pos hc] at h
      exact List.mem_cons_of_mem _ (ih seen a h)
    · rw [if_neg hc] at h
      rcases List.mem_cons.mp h with h1 | h2
      · exact h1 ▸ List.mem_cons_self _ _
      · exact List.mem_cons_of_mem _ (ih _ a h2)

theorem mem_dedupByKeyGo_not_seen {α κ : Type} [DecidableEq κ] (key : α → κ) :
    ∀ (seen : List κ) (l : List α) (a : α), a ∈ dedupByKeyGo key seen l → ¬ key a ∈ seen := by
  intro seen l
  induction l generalizing seen with
  | nil => intro a h; exact absurd h (by simp [dedupByKeyGo])
  | cons b bs ih =>
    intro a h
    rw [dedupByKeyGo] at h
    by_cases hc : seen.contains (key b) = true
    · rw [if_pos hc] at h
      exact ih seen a h
    · rw [if_neg hc] at h
      rcases List.mem_cons.mp h with h1 | h2
      · subst h1
        intro hmem
        exact hc (by simpa using hmem)
      · intro hmem
        exact ih (key b :: seen) a h2 (List.mem_cons_of_mem _ hmem)

/-- Rewriting form of `normNamesSeq` on a head without a filename. -/
theorem normNamesSeq_cons_none {d : CtxDoc} (h : getFilename d = []) (ds : List CtxDoc) :
    normNamesSeq (d :: ds) = normNamesSeq ds := by
  simp only [normNamesSeq, List.filterMap_cons, h]
  rfl

/-- Rewriting form of `normNamesSeq` on a head with a filename. -/
theorem normNamesSeq_cons_some {d : CtxDoc} (h : getFilename d ≠ []) (ds : List CtxDoc) :
    normNamesSeq (d :: ds) =
      normalize_document_name (getFilename d) :: normNamesSeq ds := by
  simp only [normNamesSeq, List.filterMap_cons]
  rw [if_pos (by simpa using h)]

/-- The step of `context_order_map` lookups with a propositional guard. -/
theorem ctxOrderGo_cons (name : List Char) (i : Nat) (d : CtxDoc) (ds : List CtxDoc) :
    ctxOrderGo name i (d :: ds) =
      if getFilename d ≠ [] ∧ normalize_document_name (getFilename d) = name then i
      else ctxOrderGo name (i + 1) ds := by
  rw [ctxOrderGo]
  by_cases h1 : getFilename d = [] <;> by_cases h2 : normalize_document_name (getFilename d) = name <;>
    simp [h1, h2]

/-- A name occurring in the context has its first-occurrence index at or
after the running index. -/
theorem ctxOrderGo_ge_of_mem :
    ∀ (ctx : List CtxDoc) (i : Nat) (name : List Char),
      name ∈ normNamesSeq ctx → i ≤ ctxOrderGo name i ctx := by
  intro ctx
  induction ctx with
  | nil => intro i name h; exact absurd h (by simp [normNamesSeq])
  | cons d ds ih =>
    intro i name h
    by_cases hf : getFilename d = []
    · rw [normNamesSeq_cons_none hf] at h
      rw [ctxOrderGo_cons, if_neg (fun hc => hc.1 hf)]
      exact Nat.le_of_succ_le (ih (i + 1) name h)
    · by_cases hn : normalize_document_name (getFilename d) = name
      · rw [ctxOrderGo_cons, if_pos ⟨hf, hn⟩]
      · rw [normNamesSeq_cons_some hf] at h
        have h2 : name ∈ normNamesSeq ds := by
          rcases List.mem_cons.mp h with h1 | h1
          · exact absurd h1.symm hn
          · exact h1
        rw [ctxOrderGo_cons, if_neg (fun hc => hn hc.2)]
        exact Nat.le_of_succ_le (ih (i + 1) name h2)

/-- On names that occur in the context, the first-occurrence index is
injective. -/
theorem ctxOrderGo_inj :
    ∀ (ctx : List CtxDoc) (i : Nat) {n m : List Char},
      n ∈ normNamesSeq ctx → m ∈ normNamesSeq ctx →
      ctxOrderGo n i ctx = ctxOrderGo m i ctx → n = m := by
  intro ctx
  induction ctx with
  | nil => intro i n m hn _ _; exact absurd hn (by simp [normNamesSeq])
  | cons d ds ih =>
    intro i n m hn hm heq
    by_cases hf : getFilename d = []
    · rw [normNamesSeq_cons_none hf] at hn hm
      rw [ctxOrderGo_cons, if_neg (fun hc => hc.1 hf),
        ctxOrderGo_cons, if_neg (fun hc => hc.1 hf)] at heq
      exact ih (i + 1) hn hm heq
    · rw [normNamesSeq_cons_some hf] at hn hm
      by_cases hn1 : normalize_document_name (getFilename d) = n
      · by_cases hm1 : normalize_document_name (getFilename d) = m
        · exact hn1.symm.trans hm1
        · have hm2 : m ∈ normNamesSeq ds := by
            rcases List.mem_cons.mp hm with h1 | h1
            · exact absurd h1.symm hm1
            · exact h1
          rw [ctxOrderGo_cons, if_pos ⟨hf, hn1⟩,
            ctxOrderGo_cons, if_neg (fun hc => hm1 hc.2)] at heq
          have hge := ctxOrderGo_ge_of_mem ds (i + 1) m hm2
          omega
      · by_cases hm1 : normalize_document_name (getFilename d) = m
        · have hn2 : n ∈ normNamesSeq ds := by
            rcases List.mem_cons.mp hn with h1 | h1
            · exact absurd h1.symm hn1
            · exact h1
          rw [ctxOrderGo_cons, if_neg (fun hc => hn1 hc.2),
            ctxOrderGo_cons, if_pos ⟨hf, hm1⟩] at heq
          have hge := ctxOrderGo_ge_of_mem ds (i + 1) n hn2
          omega
        · have hn2 : n ∈ normNamesSeq ds := by
            rcases List.mem_cons.mp hn with h1 | h1
            · exact absurd h1.symm hn1
            · exact h1
          have hm2 : m ∈ normNamesSeq ds := by
            rcases List.mem_cons.mp hm with h1 | h1
            · exact absurd h1.symm hm1
            · exact h1
          rw [ctxOrderGo_cons, if_neg (fun hc => hn1 hc.2),
            ctxOrderGo_cons, if_neg (fun hc => hm1 hc.2)] at heq
          exact ih (i + 1) hn2 hm2 heq

/-- The step of the first-wins deduplication with a propositional guard. -/
theorem dedupByKeyGo_cons {α κ : Type} [DecidableEq κ] (key : α → κ) (seen : List κ)
    (a : α) (l : List α) :
    dedupByKeyGo key seen (a :: l) =
      if key a ∈ seen then dedupByKeyGo key seen l
      else a :: dedupByKeyGo key (key a :: seen) l := by
  rw [dedupByKeyGo]
  by_cases h : key a ∈ seen
  · rw [if_pos (by simpa using h), if_pos h]
  · rw [if_neg (by simpa using h), if_neg h]

/-- The distinct normalized names, in first-occurrence order, have strictly
increasing first-occurrence indices. -/
theorem ctxOrder_pairwiseGo :
    ∀ (ctx : List CtxDoc) (i : Nat) (seen : List (List Char)),
      List.Pairwise (fun n m => ctxOrderGo n i ctx < ctxOrderGo m i ctx)
        (dedupByKeyGo id seen (normNamesSeq ctx)) := by
  intro ctx
  induction ctx with
  | nil =>
    intro i seen
    simp [normNamesSeq, dedupByKeyGo]
  | cons d ds ih =>
    intro i seen
    by_cases hf : getFilename d = []
    · rw [normNamesSeq_cons_none hf]
      refine (ih (i + 1) seen).imp ?_
      intro a b hab
      rw [ctxOrderGo_cons, if_neg (fun hc => hc.1 hf),
        ctxOrderGo_cons, if_neg (fun hc => hc.1 hf)]
      exact hab
    · rw [normNamesSeq_cons_some hf, dedupByKeyGo_cons]
      by_cases hc : id (normalize_document_name (getFilename d)) ∈ seen
      · rw [if_pos hc]
        refine (ih (i + 1) seen).imp_of_mem ?_
        intro a b ha hb hab
        have hna : ¬ a ∈ seen := mem_dedupByKeyGo_not_seen id seen _ a ha
        have hnb : ¬ b ∈ seen := mem_dedupByKeyGo_not_seen id seen _ b hb
        have ha2 : normalize_document_name (getFilename d) ≠ a := fun h => hna (h ▸ hc)
        have hb2 : normalize_document_name (getFilename d) ≠ b := fun h => hnb (h ▸ hc)
        rw [ctxOrderGo_cons, if_neg (fun hc2 => ha2 hc2.2),
          ctxOrderGo_cons, if_neg (fun hc2 => hb2 hc2.2)]
        exact hab
      · rw [if_neg hc]
        constructor
        · intro b hb
          have hbm : b ∈ normNamesSeq ds := mem_dedupByKeyGo_sub id _ _ b hb
          have hbn : ¬ b ∈ (id (normalize_document_name (getFilename d)) :: seen) :=
            mem_dedupByKeyGo_not_seen id _ _ b hb
          have hbne : normalize_document_name (getFilename d) ≠ b := fun h =>
            hbn (h ▸ List.mem_cons_self _ _)
          rw [ctxOrderGo_cons, if_pos ⟨hf, rfl⟩,
            ctxOrderGo_cons, if_neg (fun hc2 => hbne hc2.2)]
          exact Nat.lt_of_succ_le (ctxOrderGo_ge_of_mem ds (i + 1) b hbm)
        · refine (ih (i + 1) (id (normalize_document_name (getFilename d)) :: seen)).imp_of_mem ?_
          intro a b ha hb hab
          have hna := mem_dedupByKeyGo_not_seen id _ _ a ha
          have hnb := mem_dedupByKeyGo_not_seen id _ _ b hb
          have ha2 : normalize_document_name (getFilename d) ≠ a := fun h =>
            hna (h ▸ List.mem_cons_self _ _)
          have hb2 : normalize_document_name (getFilename d) ≠ b := fun h =>
            hnb (h ▸ List.mem_cons_self _ _)
          rw [ctxOrderGo_cons, if_neg (fun hc2 => ha2 hc2.2),
            ctxOrderGo_cons, if_neg (fun hc2 => hb2 hc2.2)]
          exact hab

/-- First-occurrence indices strictly increase along `doc_chunk_counts`
keys. -/
theorem distinctNormNames_pairwise (context : List CtxDoc) :
    List.Pairwise (fun n m => ctxOrder context n < ctxOrder context m)
      (distinctNormNames context) :=
  ctxOrder_pairwiseGo context 0 []

theorem distinctNormNames_nodup (context : List CtxDoc) :
    (distinctNormNames context).Nodup :=
  (distinctNormNames_pairwise context).imp fun hab heq =>
    absurd (heq ▸ hab) (lt_irrefl _)

theorem mem_distinctNormNames_sub {context : List CtxDoc} {n : List Char}
    (h : n ∈ distinctNormNames context) : n ∈ normNamesSeq context :=
  mem_dedupByKeyGo_sub id [] _ n h

/-- Every entry of `doc_chunk_counts` has a positive chunk count: its key
occurs in the per-chunk name sequence. -/
theorem docChunkCounts_count_pos (context : List CtxDoc) :
    ∀ t ∈ docChunkCounts context, 0 < t.2.1 := by
  intro t ht
  rw [docChunkCounts] at ht
  obtain ⟨n, hn, rfl⟩ := List.mem_map.mp ht
  have hmem : n ∈ normNamesSeq context := mem_distinctNormNames_sub hn
  simpa [chunkCountOf] using List.count_pos_iff.mpr hmem

/-- When every count is positive the `contributing_docs` filter keeps every
entry. -/
theorem filterMap_pos_eq_map :
    ∀ (l : List (List Char × Nat × ℚ)), (∀ t ∈ l, 0 < t.2.1) →
      (l.filterMap fun t =>
        if 0 < t.2.1 then
          some ({ filename := t.1, relevance := relFromHigh t.2.2,
                  chunksUsed := t.2.1 } : ContribDoc)
        else none) =
      l.map fun t =>
        { filename := t.1, relevance := relFromHigh t.2.2, chunksUsed := t.2.1 } := by
  intro l
  induction l with
  | nil => intro _; rfl
  | cons a as ih =>
    intro h
    rw [List.map_cons,
      List.filterMap_cons_some (by rw [if_pos (h a (List.mem_cons_self _ _))]),
      ih fun t ht => h t (List.mem_cons_of_mem _ ht)]

/-- The filenames of `contributing_docs` are a permutation of the distinct
normalized names. -/
theorem contribFilenames_perm (context : List CtxDoc) :
    ((contributingDocs context).map ContribDoc.filename).Perm (distinctNormNames context) := by
  rw [contributingDocs, filterMap_pos_eq_map _ fun t ht =>
    docChunkCounts_count_pos context t ((pySort_perm _ _).mem_iff.mp ht)]
  rw [List.map_map]
  have h1 : ((pySort (fun t : List Char × Nat × ℚ => OrderDual.toDual (toLex (t.2.1, t.2.2)))
      (docChunkCounts context)).map fun t => t.1).Perm
      ((docChunkCounts context).map fun t => t.1) :=
    (pySort_perm _ _).map _
  refine h1.trans ?_
  rw [docChunkCounts, List.map_map]
  have hcomp : ((fun t : List Char × Nat × ℚ => t.1) ∘
      fun n => (n, chunkCountOf context n, highScoreOf context n)) = id :=
    funext fun n => rfl
  rw [hcomp, List.map_id]

/-- The filenames of the re-sorted contributing documents are a permutation
of the distinct normalized names. -/
theorem orderedContrib_perm (context : List CtxDoc) :
    ((pySort (fun c : ContribDoc =>
        toLex (ctxOrder context c.filename,
          toLex (OrderDual.toDual c.chunksUsed, OrderDual.toDual c.relevance)))
      (contributingDocs context)).map ContribDoc.filename).Perm
      (distinctNormNames context) :=
  ((pySort_perm _ _).map _).trans (contribFilenames_perm context)

/-- After the ascending re-sort of the chunk branch the filenames appear in
strictly increasing context order. -/
theorem orderedContrib_sorted (context : List CtxDoc) :
    List.Pairwise (fun n m => ctxOrder context n < ctxOrder context m)
      ((pySort (fun c : ContribDoc =>
          toLex (ctxOrder context c.filename,
            toLex (OrderDual.toDual c.chunksUsed, OrderDual.toDual c.relevance)))
        (contributingDocs context)).map ContribDoc.filename) := by
  rw [List.pairwise_map]
  have hpw := pySort_pairwise (fun c : ContribDoc =>
    toLex (ctxOrder context c.filename,
      toLex (OrderDual.toDual c.chunksUsed, OrderDual.toDual c.relevance)))
    (contributingDocs context)
  have hnd0 : ((pySort (fun c : ContribDoc =>
      toLex (ctxOrder context c.filename,
        toLex (OrderDual.toDual c.chunksUsed, OrderDual.toDual c.relevance)))
      (contributingDocs context)).map ContribDoc.filename).Nodup :=
    (orderedContrib_perm context).nodup_iff.mpr (distinctNormNames_nodup context)
  have hnd := List.pairwise_map.mp hnd0
  refine (hpw.and hnd).imp_of_mem ?_
  intro a b ha hb hab
  have hma : a.filename ∈ normNamesSeq context :=
    mem_distinctNormNames_sub
      ((orderedContrib_perm context).mem_iff.mp (List.mem_map_of_mem _ ha))
  have hmb : b.filename ∈ normNamesSeq context :=
    mem_distinctNormNames_sub
      ((orderedContrib_perm context).mem_iff.mp (List.mem_map_of_mem _ hb))
  rcases (Prod.Lex.le_iff _ _).mp hab.1 with h | h
  · exact h
  · exact absurd (ctxOrderGo_inj context 0 hma hmb h.1) hab.2

/-- The ascending re-sort of the chunk branch lists the documents exactly in
first-occurrence context order. -/
theorem orderedContrib_map_filename (context : List CtxDoc) :
    (pySort (fun c : ContribDoc =>
        toLex (ctxOrder context c.filename,
          toLex (OrderDual.toDual c.chunksUsed, OrderDual.toDual c.relevance)))
      (contributingDocs context)).map ContribDoc.filename = distinctNormNames context := by
  haveI : IsAntisymm (List Char) (fun n m => ctxOrder context n < ctxOrder context m) :=
    ⟨fun a b h1 h2 => absurd h2 (Nat.lt_asymm h1)⟩
  exact List.eq_of_perm_of_sorted (orderedContrib_perm context)
    (orderedContrib_sorted context) (distinctNormNames_pairwise context)

/-- The chunk branch under an explicit request for two documents returns
the first two distinct documents in context order. -/
theorem chunkBranch_two (context : List CtxDoc) :
    (chunkBranch context (some 2)).map Source.filename =
      (distinctNormNames context).take 2 := by
  simp only [chunkBranch]
  rw [if_pos (by decide : requestedGT1 (some 2) = true)]
  rw [List.map_map]
  have hcomp : (Source.filename ∘ fun c : ContribDoc =>
      ({ filename := c.filename, relevance := c.relevance } : Source)) =
      ContribDoc.filename := funext fun c => rfl
  rw [hcomp, List.map_take, orderedContrib_map_filename]
  rfl

/-- C2 (amended): for a question containing "first two documents", a
non-empty answer and a context with at least two distinct normalized
document names, `_extract_actual_sources` returns exactly 2 sources — but
they are the FIRST TWO DISTINCT DOCUMENTS IN CONTEXT ORDER, not the two of
highest chunk-contribution count: the requested-count re-sort uses the
ascending key (context order, -chunks, -relevance), whose primary component
is the context position, so chunk count and relevance only break ties
between documents first seen at the same position, which cannot happen. -/
theorem c2_first_two_requested (answer question : List Char) (context : List CtxDoc)
    (candidate_sources : List (List Char))
    (hq : containsSub (toLowerStr question) "first two documents".data = true)
    (hans : answer ≠ []) (hctx : context ≠ [])
    (hlen : 2 ≤ (distinctNormNames context).length) :
    (extract_actual_sources answer context candidate_sources question).map Source.filename =
      (distinctNormNames context).take 2 ∧
    (extract_actual_sources answer context candidate_sources question).length = 2 := by
  have hguard : ¬(answer = [] ∨ context = []) := not_or.mpr ⟨hans, hctx⟩
  have hdet : detectRequestedCount (toLowerStr question) = some 2 := detect_first_two hq
  have hdcc : docChunkCounts context ≠ [] := by
    intro h0
    rw [docChunkCounts] at h0
    have h1 : distinctNormNames context = [] := by simpa using h0
    rw [h1] at hlen
    exact absurd hlen (by decide)
  have hclen : (contributingDocs context).length = (distinctNormNames context).length := by
    have h1 := congrArg List.length (orderedContrib_map_filename context)
    rwa [List.length_map, pySort_length] at h1
  have hcon : contributingDocs context ≠ [] := by
    intro h0
    rw [h0] at hclen
    rw [← hclen] at hlen
    exact absurd hlen (by decide)
  have hx : extract_actual_sources answer context candidate_sources question =
      chunkBranch context (some 2) := by
    unfold extract_actual_sources
    rw [if_neg hguard]
    dsimp only
    rw [hdet, if_pos (by decide : requestedGT1 (some 2) = true), if_neg (by simp),
      if_pos hdcc, if_pos hcon]
  have hmap : (extract_actual_sources answer context candidate_sources question).map
      Source.filename = (distinctNormNames context).take 2 := by
    rw [hx, chunkBranch_two]
  refine ⟨hmap, ?_⟩
  have h1 := congrArg List.length hmap
  rw [List.length_map, List.length_take] at h1
  omega

/-- C2 counterexample to the stated ranking: with the context holding
aa.txt, bb.txt and then two chunks of cc.txt, the per-document chunk
counts are 1, 1 and 2, so a ranking by chunk count then relevance would
return cc.txt first; the code instead returns [aa.txt, bb.txt] — the first
two documents in context order — and drops the highest-contributing
cc.txt entirely. -/
theorem c2_first_two_requested_counterexample :
    (extract_actual_sources "aa.txt bb.txt cc.txt".data c2ctx []
        "first two documents".data).map Source.filename =
      ["aa.txt".data, "bb.txt".data] ∧
    chunkCountOf c2ctx "cc.txt".data = 2 ∧
    chunkCountOf c2ctx "aa.txt".data = 1 ∧
    chunkCountOf c2ctx "bb.txt".data = 1 ∧
    ¬ "cc.txt".data ∈ (extract_actual_sources "aa.txt bb.txt cc.txt".data c2ctx []
        "first two documents".data).map Source.filename := by
  decide

/-- C2 witness: the amended theorem applied to the concrete
counterexample context. -/
theorem c2_first_two_requested_witness :
    (extract_actual_sources "aa.txt bb.txt cc.txt".data c2ctx []
        "first two documents".data).map Source.filename =
      (distinctNormNames c2ctx).take 2 ∧
    (extract_actual_sources "aa.txt bb.txt cc.txt".data c2ctx []
        "first two documents".data).length = 2 :=
  c2_first_two_requested "aa.txt bb.txt cc.txt".data "first two documents".data c2ctx []
    (by decide) (by decide) (by decide) (by decide)
